import Mathlib

/-!
Verification development for the gmx_utils structured-text parsing layer
(`md_utils/simulation/gmx_parser.py` and `md_utils/gmx/gmx_parser.py`).

The Python code is shallowly embedded:
* files are lists of lines (strings without a trailing newline);
* Python `str.strip`, `str.split`, `int(...)`, `float(...)` are modelled
  character-exactly for ASCII input (Python additionally accepts some
  non-ASCII digits, which no claim exercises);
* Python floats are modelled as exact decimal values (sign/mantissa/exponent)
  plus `inf`/`-inf`/`nan`; IEEE-754 rounding and `OverflowError` at extreme
  exponents are abstracted away, and equality of values is structural --
  every claim under study only compares values produced by this one parser;
* `OrderedDict` is modelled as an association list with Python dict
  insertion semantics (assignment to an existing key keeps its position);
* raising an exception is modelled with `Except`.
-/

instance {ε α : Type} [DecidableEq ε] [DecidableEq α] : DecidableEq (Except ε α) := fun x y =>
  match x, y with
  | .ok a, .ok b => if h : a = b then .isTrue (by rw [h]) else .isFalse (by simp [h])
  | .error a, .error b => if h : a = b then .isTrue (by rw [h]) else .isFalse (by simp [h])
  | .ok _, .error _ => .isFalse (by simp)
  | .error _, .ok _ => .isFalse (by simp)

/-- Python `str.isspace` characters that can occur inside a line. -/
def pyIsSpace (c : Char) : Bool :=
  c = ' ' || c = '\t' || c = '\n' || c = '\r' || c = '\x0b' || c = '\x0c'

/-- Drop leading whitespace (char-list core of `str.lstrip`). -/
def ltrim (cs : List Char) : List Char := cs.dropWhile pyIsSpace

/-- Drop trailing whitespace (char-list core of `str.rstrip`). -/
def rtrim (cs : List Char) : List Char := (cs.reverse.dropWhile pyIsSpace).reverse

/-- Char-list core of Python `str.strip()`. -/
def stripCore (cs : List Char) : List Char := rtrim (ltrim cs)

/-- Python `str.strip()`. -/
def pyStrip (s : String) : String := String.mk (stripCore s.data)

def notSpace (c : Char) : Bool := !pyIsSpace c

/-- Fuelled core of Python `str.split()` (split on whitespace runs,
no empty tokens).  Structural recursion on the fuel keeps it
kernel-reducible. -/
def splitChF : Nat → List Char → List (List Char)
  | 0, _ => []
  | fuel + 1, cs =>
    match cs.dropWhile pyIsSpace with
    | [] => []
    | c :: rest =>
      (c :: rest.takeWhile notSpace) :: splitChF fuel (rest.dropWhile notSpace)

/-- Python `str.split()` on a char list: list of nonempty whitespace-free
tokens. -/
def splitCh (cs : List Char) : List (List Char) := splitChF cs.length cs

/-- Python `str.split()`. -/
def pySplit (s : String) : List String := (splitCh s.data).map String.mk

/-- ASCII decimal digit test (Python's `str.isdigit` restricted to ASCII,
which is what `int`/`float` accept besides underscores and sign). -/
def isDig (c : Char) : Bool :=
  c = '0' || c = '1' || c = '2' || c = '3' || c = '4' ||
  c = '5' || c = '6' || c = '7' || c = '8' || c = '9'

/-- Numeric value of an ASCII digit character. -/
def charVal (c : Char) : Nat := c.toNat - 48

/-- Value of a big-endian list of digit characters. -/
def digitsVal (ds : List Char) : Nat := ds.foldl (fun a c => 10 * a + charVal c) 0

/-- Tail of a Python numeric digit group: `(digit | _ digit)*`, underscores
removed.  Fails on misplaced underscores, exactly like `int()`/`float()`. -/
def undTail : List Char → Option (List Char)
  | [] => some []
  | c :: rest =>
    if c = '_' then
      match rest with
      | c2 :: rest2 => if isDig c2 then (undTail rest2).map (c2 :: ·) else none
      | [] => none
    else if isDig c then (undTail rest).map (c :: ·) else none

/-- A nonempty Python digit group `digit (digit | _ digit)*`, underscores
removed. -/
def deUnd : List Char → Option (List Char)
  | [] => none
  | c :: rest => if isDig c then (undTail rest).map (c :: ·) else none

/-- A possibly empty Python digit group (used for the integer and fraction
parts of a float literal, either of which may be absent). -/
def deUndOpt (cs : List Char) : Option (List Char) :=
  match cs with
  | [] => some []
  | _ => deUnd cs

/-- Sign handling shared by `int()` and `float()`: strips one optional
leading `+`/`-`. -/
def splitSign : List Char → Bool × List Char
  | [] => (false, [])
  | c :: rest =>
    if c = '+' then (false, rest)
    else if c = '-' then (true, rest)
    else (false, c :: rest)

def applySign (neg : Bool) (n : Nat) : Int := if neg then -(n : Int) else (n : Int)

/-- Python `int(s)` on a char list: strip whitespace, optional sign, then a
base-10 digit group with underscores. -/
def pyIntChars (cs : List Char) : Option Int :=
  let body := stripCore cs
  let (neg, ds) := splitSign body
  (deUnd ds).map (fun d => applySign neg (digitsVal d))

/-- Python `int(s)` (base 10, as used by both parsers). -/
def pyInt (s : String) : Option Int := pyIntChars s.data

/-- Split a char list at the first char satisfying `p`; returns the parts
before and after (the matching char removed). -/
def splitFirst (p : Char → Bool) : List Char → Option (List Char × List Char)
  | [] => none
  | c :: cs =>
    if p c then some ([], cs)
    else (splitFirst p cs).map (fun pr => (c :: pr.1, pr.2))

/-- A Python float value, modelled exactly: `fin m e` denotes the decimal
`m * 10 ^ e`; `pinf`/`ninf`/`nan` are the IEEE specials `float()` accepts
by name. -/
inductive PyFloat where
  | fin (m : Int) (e : Int)
  | pinf
  | ninf
  | nan
deriving DecidableEq, Repr

/-- Fuelled normalisation of a decimal pair: divide out factors of 10 from
the mantissa so that equal decimal values get equal representations; `0`
is canonically `(0, 0)`. -/
def normDecF : Nat → Int → Int → Int × Int
  | 0, m, e => (m, e)
  | fuel + 1, m, e =>
    if m = 0 then (0, 0)
    else if m % 10 = 0 then normDecF fuel (m / 10) (e + 1)
    else (m, e)

/-- Canonical form of the decimal `m * 10 ^ e`. -/
def normDec (m e : Int) : Int × Int := normDecF (m.natAbs + 1) m e

/-- Build a normalised finite float value. -/
def mkFin (m e : Int) : PyFloat :=
  let p := normDec m e
  .fin p.1 p.2

def isE (c : Char) : Bool := c = 'e' || c = 'E'

/-- Parse the exponent part of a float literal (after `e`/`E`):
optional sign then a required digit group. -/
def expVal (cs : List Char) : Option Int :=
  let (neg, ds) := splitSign cs
  (deUnd ds).map (fun d => applySign neg (digitsVal d))

/-- Split a float literal body at an optional `e`/`E` exponent marker,
parsing the exponent when present. -/
def parseExp (cs : List Char) : Option (List Char × Int) :=
  match splitFirst isE cs with
  | none => some (cs, (0 : Int))
  | some (mant, ex) => (expVal ex).map (fun v => (mant, v))

/-- Split a float mantissa at an optional decimal point into integer and
fraction digit groups (either may be empty). -/
def parseMant (mant : List Char) : Option (List Char × List Char) :=
  match splitFirst (· = '.') mant with
  | none => (deUndOpt mant).map (fun i => (i, ([] : List Char)))
  | some (ip, fp) =>
    match deUndOpt ip, deUndOpt fp with
    | some i, some f => some (i, f)
    | _, _ => none

/-- Parse the numeric body of a float literal (sign already removed):
`digits? [. digits?] [(e|E) sign? digits]`, at least one mantissa digit.
The result is the mantissa digits' value and the effective decimal
exponent. -/
def floatBody (cs : List Char) : Option (Nat × Int) :=
  match parseExp cs with
  | none => none
  | some (mant, ex) =>
    match parseMant mant with
    | none => none
    | some (i, f) =>
      if i ++ f = [] then none
      else some (digitsVal (i ++ f), ex - (f.length : Int))

/-- Case-fold a char list to lower case (ASCII). -/
def lowerAll (cs : List Char) : List Char := cs.map Char.toLower

/-- Python `float(s)` on a char list: strip, optional sign, then either a
decimal literal or one of the words `inf`/`infinity`/`nan`
(case-insensitive). -/
def pyFloatChars (cs : List Char) : Option PyFloat :=
  let body := stripCore cs
  let (neg, ds) := splitSign body
  match floatBody ds with
  | some (m, e) => some (mkFin (applySign neg m) e)
  | none =>
    let w := lowerAll ds
    if w = "inf".data || w = "infinity".data then some (if neg then .ninf else .pinf)
    else if w = "nan".data then some .nan
    else none

/-- Python `float(s)`. -/
def pyFloat (s : String) : Option PyFloat := pyFloatChars s.data

/-- Fuelled big-endian decimal digits of a natural number (kernel-reducible
counterpart of `Nat.digits 10`). -/
def natChars : Nat → Nat → List Char
  | 0, _ => []
  | fuel + 1, n =>
    if n < 10 then [Nat.digitChar n]
    else natChars fuel (n / 10) ++ [Nat.digitChar (n % 10)]

/-- Big-endian decimal digit characters of `n` (`n = 0` gives `"0"`). -/
def natDecChars (n : Nat) : List Char := natChars (n + 1) n

/-- Python `str` of a natural number. -/
def natStr (n : Nat) : String := String.mk (natDecChars n)

/-- Python `str` of an `int`. -/
def intStr (n : Int) : String :=
  match n with
  | .ofNat m => natStr m
  | .negSucc m => "-" ++ natStr (m + 1)

/-- Decimal rendering of the magnitude `a * 10 ^ e` of a finite float,
always containing a decimal point (as Python `str(float)` output always
contains `.`, `e` or a special word). -/
def decChars (a : Nat) (e : Int) : List Char :=
  if a = 0 then '0' :: '.' :: ['0']
  else
    let D := natDecChars a
    if 0 ≤ e then D ++ List.replicate e.toNat '0' ++ '.' :: ['0']
    else
      let k := (-e).toNat
      if k < D.length then D.take (D.length - k) ++ '.' :: D.drop (D.length - k)
      else '0' :: '.' :: (List.replicate (k - D.length) '0' ++ D)

/-- Python `str` of a float value (value-faithful: Python may pick a
different spelling, e.g. exponent notation, of the same value). -/
def pyDecStr : PyFloat → String
  | .nan => "nan"
  | .pinf => "inf"
  | .ninf => "-inf"
  | .fin m e => (if m < 0 then "-" else "") ++ String.mk (decChars m.natAbs e)

/-- A scalar Python value as produced by `MDP._convert_to_numeric`. -/
inductive PyScalar where
  | int (n : Int)
  | float (f : PyFloat)
  | str (s : String)
deriving DecidableEq, Repr

/-- A value stored in an `MDP` document: a scalar or a list of scalars. -/
inductive PyVal where
  | scalar (x : PyScalar)
  | list (xs : List PyScalar)
deriving DecidableEq, Repr

/-- All-or-nothing conversion of a token list (the behaviour of a Python
list comprehension `[conv(i) for i in toks]` under `try/except`). -/
def optMapM {a b : Type} (f : a → Option b) : List a → Option (List b)
  | [] => some []
  | x :: xs =>
    match f x with
    | some y => (optMapM f xs).map (y :: ·)
    | none => none

/-- `MDP._convert_to_numeric` (gmx_parser.py lines 98-126): try `int`, then
`float`, then `str` on every whitespace-separated token; the first converter
that succeeds on all tokens wins; a single token yields a scalar, any other
token count yields a list. -/
def convertToNumeric (s : String) : PyVal :=
  let toks := splitCh s.data
  match optMapM pyIntChars toks with
  | some ns =>
    match ns with
    | [n] => .scalar (.int n)
    | _ => .list (ns.map .int)
  | none =>
    match optMapM pyFloatChars toks with
    | some fs =>
      match fs with
      | [f] => .scalar (.float f)
      | _ => .list (fs.map .float)
    | none =>
      match toks with
      | [t] => .scalar (.str (String.mk t))
      | _ => .list (toks.map (fun t => .str (String.mk t)))

/-- Match of `MDP.COMMENT` (`\s*;\s*(?P<value>.*)`, applied with `re.match`
to the stripped line): succeeds iff the first non-whitespace char is `;`,
capturing the rest with following whitespace dropped. -/
def commentMatch (s : String) : Option String :=
  match s.data.dropWhile pyIsSpace with
  | [] => none
  | c :: tail => if c = ';' then some (String.mk (tail.dropWhile pyIsSpace)) else none

/-- Match of `MDP.PARAMETER`
(`\s*(?P<parameter>[^=]+?)\s*=\s*(?P<value>[^;]*)(?P<comment>\s*;.*)?`,
applied with `re.match` to the stripped line): the key is the trimmed text
before the first `=` (must be nonempty), the value is the text after it up
to an optional `;`, with leading whitespace dropped; the trailing comment is
discarded.  `MDP.read` only applies it to stripped lines, for which this is
exactly the regex's behaviour. -/
def paramMatch (s : String) : Option (String × String) :=
  match splitFirst (· = '=') s.data with
  | none => none
  | some (before, after) =>
    let key := stripCore before
    if key = [] then none
    else some (String.mk key, String.mk ((after.dropWhile pyIsSpace).takeWhile (· ≠ ';')))

/-- The line classification cascade of `MDP.read` (blank, then comment,
then parameter, else an unrecognised line). -/
inductive LineKind where
  | blank
  | comment (text : String)
  | param (key value : String)
  | bad
deriving DecidableEq, Repr

/-- Classify one raw line the way `MDP.read` does: strip it, test
emptiness, then the `COMMENT` regex, then the `PARAMETER` regex. -/
def classifyLine (line : String) : LineKind :=
  let l := pyStrip line
  if l = "" then .blank
  else
    match commentMatch l with
    | some t => .comment t
    | none =>
      match paramMatch l with
      | some kv => .param kv.1 kv.2
      | none => .bad

/-- `f"{i:04d}"`: decimal digits of `i` left-padded with zeros to width 4. -/
def pad4 (i : Nat) : String :=
  let d := natDecChars i
  String.mk (List.replicate (4 - d.length) '0' ++ d)

/-- Synthetic key of the `i`-th blank line (`f"B{i:04d}"`). -/
def bKey (i : Nat) : String := "B" ++ pad4 i

/-- Synthetic key of the `i`-th comment line (`f"C{i:04d}"`). -/
def cKey (i : Nat) : String := "C" ++ pad4 i

/-- Python dict assignment `d[k] = v`: replaces the value in place if the
key exists (keeping its position), otherwise appends. -/
def dictInsert (d : List (String × PyVal)) (k : String) (v : PyVal) : List (String × PyVal) :=
  match d with
  | [] => [(k, v)]
  | (k0, v0) :: rest => if k0 = k then (k, v) :: rest else (k0, v0) :: dictInsert rest k v

/-- `OrderedDict.update(data)`: insert the entries of `data` in order. -/
def dictUpdate (d data : List (String × PyVal)) : List (String × PyVal) :=
  data.foldl (fun acc e => dictInsert acc e.1 e.2) d

/-- Python `os.path.basename` (on a path as produced by `realpath`). -/
def pyBasename (f : String) : String :=
  String.mk (((f.data.splitOnP (· = '/')).getLastD []))

/-- Single-quote character, used by Python `repr` of a string. -/
def pyQuote : String := String.singleton (Char.ofNat 39)

/-- Simplified Python `repr` of a string (no escaping, which no claim
exercises): the text wrapped in single quotes. -/
def pyRepr (s : String) : String := pyQuote ++ s ++ pyQuote

/-- The `ParseError` message built by `MDP.read`:
`f"{os.path.basename(self.input_mdp)!r}: unknown line in mdp file, {line!r}"`
where `line` is the stripped line. -/
def mkErr (base line : String) : String :=
  pyRepr base ++ ": unknown line in mdp file, " ++ pyRepr line

/-- Parsing state of `MDP.read`: the local `data` dict and the blank and
comment counters. -/
structure RSt where
  data : List (String × PyVal)
  ib : Nat
  ic : Nat
deriving DecidableEq, Repr

/-- One loop iteration of `MDP.read` on a raw line. -/
def readStep (fname : String) (st : RSt) (line : String) : Except String RSt :=
  match classifyLine line with
  | .blank =>
    .ok { st with ib := st.ib + 1,
                  data := dictInsert st.data (bKey (st.ib + 1)) (.scalar (.str "")) }
  | .comment t =>
    .ok { st with ic := st.ic + 1,
                  data := dictInsert st.data (cKey (st.ic + 1)) (.scalar (.str t)) }
  | .param k v =>
    .ok { st with data := dictInsert st.data k (convertToNumeric v) }
  | .bad => .error (mkErr (pyBasename fname) (pyStrip line))

/-- The loop of `MDP.read` over the file's lines. -/
def readFold (fname : String) (st : RSt) : List String → Except String RSt
  | [] => .ok st
  | l :: ls =>
    match readStep fname st l with
    | .ok st2 => readFold fname st2 ls
    | .error e => .error e

/-- `MDP.read` on a fresh instance: parse the lines of the file `fname`
into the ordered entry dict, or fail with a `ParseError` message. -/
def readMDP (fname : String) (lines : List String) : Except String (List (String × PyVal)) :=
  (readFold fname { data := [], ib := 0, ic := 0 } lines).map RSt.data

/-- `MDP.read` on an instance holding `inst`: the local `data` dict is
committed into the instance with `update` only after the whole file parsed;
on error the instance is returned unchanged together with the message. -/
def readMDPInto (inst : List (String × PyVal)) (fname : String) (lines : List String) :
    List (String × PyVal) × Option String :=
  match readFold fname { data := [], ib := 0, ic := 0 } lines with
  | .ok st => (dictUpdate inst st.data, none)
  | .error e => (inst, some e)

/-- Python `str` of a scalar value. -/
def scalarStr : PyScalar → String
  | .int n => intStr n
  | .float f => pyDecStr f
  | .str s => s

/-- Python `repr` of a scalar (used by `str` of a list). -/
def scalarRepr : PyScalar → String
  | .int n => intStr n
  | .float f => pyDecStr f
  | .str s => pyRepr s

/-- Python `" ".join(...)` / `", ".join(...)`. -/
def joinSep (sep : String) : List String → String
  | [] => ""
  | [s] => s
  | s :: rest => s ++ sep ++ joinSep sep rest

/-- Python `str` of a document value (`f"{v!s}"`). -/
def pyStr : PyVal → String
  | .scalar x => scalarStr x
  | .list xs => "[" ++ joinSep ", " (xs.map scalarRepr) ++ "]"

/-- The text after `key = ` that `MDP.write` emits for a value: `str` of a
scalar, or the elements joined by single spaces for a list. -/
def valStr : PyVal → String
  | .scalar x => scalarStr x
  | .list xs => joinSep " " (xs.map scalarStr)

/-- Whether the `skipempty` test `v == "" or v is None` holds (`None`
never occurs in a parsed document). -/
def isEmptyVal (v : PyVal) : Bool := v = .scalar (.str "")

/-- The body of the `for k, v in self.items()` loop of `MDP.write`
(lines 183-195): the emitted line for one entry (without the trailing
newline), or `none` when the entry is skipped.  Branching is exactly
`k[0] == "B"`, then `k[0] == "C"`, then the `skipempty` test, then the
scalar/iterable split (an empty key, impossible in a parsed document,
takes the parameter branch where Python would raise `IndexError`). -/
def writeEntry (skipempty : Bool) (k : String) (v : PyVal) : Option String :=
  match k.data.head? with
  | some 'B' => some ""
  | some 'C' => some ("; " ++ pyStr v)
  | _ =>
    if skipempty && isEmptyVal v then none
    else some (k ++ " = " ++ valStr v)

/-- `MDP.write`: the lines of the output file, in entry order. -/
def writeLines (skipempty : Bool) (doc : List (String × PyVal)) : List String :=
  doc.filterMap (fun e => writeEntry skipempty e.1 e.2)

/-- Parsing state of `parse_ndx`: the `current_group` variable and the
ordered `groups` dict. -/
structure NSt where
  cur : Option String
  groups : List (String × List Int)
deriving DecidableEq, Repr

/-- Header test of `parse_ndx` on the stripped line:
`line.startswith('[') and line.endswith(']')`. -/
def isHeaderCh (cs : List Char) : Bool := cs.head? = some '[' && cs.getLast? = some ']'

/-- Group name of a header line: `line[1:-1].strip()`. -/
def headerName (cs : List Char) : String := String.mk (stripCore (cs.drop 1).dropLast)

/-- `groups[name] = []` (Python dict assignment, position kept on repeat). -/
def odSet (d : List (String × List Int)) (k : String) (v : List Int) : List (String × List Int) :=
  match d with
  | [] => [(k, v)]
  | (k0, v0) :: rest => if k0 = k then (k, v) :: rest else (k0, v0) :: odSet rest k v

/-- `groups[current_group].extend(ns)`. -/
def odExtend (d : List (String × List Int)) (k : String) (ns : List Int) :
    List (String × List Int) :=
  match d with
  | [] => []
  | (k0, v0) :: rest => if k0 = k then (k0, v0 ++ ns) :: rest else (k0, v0) :: odExtend rest k ns

/-- One loop iteration of `parse_ndx` on a raw line. -/
def ndxStep (st : NSt) (line : String) : Except String NSt :=
  let l := pyStrip line
  if isHeaderCh l.data then
    let name := headerName l.data
    .ok { cur := some name, groups := odSet st.groups name [] }
  else
    match st.cur with
    | none => .ok st
    | some g =>
      match optMapM pyIntChars (splitCh l.data) with
      | some ns => .ok { st with groups := odExtend st.groups g ns }
      | none =>
        let bad := ((splitCh l.data).find? (fun t => (pyIntChars t).isNone)).getD []
        .error ("invalid literal for int() with base 10: " ++ pyRepr (String.mk bad))

/-- The loop of `parse_ndx` over the file's lines. -/
def ndxFold (st : NSt) : List String → Except String NSt
  | [] => .ok st
  | l :: ls =>
    match ndxStep st l with
    | .ok st2 => ndxFold st2 ls
    | .error e => .error e

/-- `f"{s:<{w}}"`: left-align (pad right with spaces) to width `w`. -/
def padRight (s : String) (w : Nat) : String :=
  s ++ String.mk (List.replicate (w - s.length) ' ')

/-- `f"{s:>{w}}"`: right-align (pad left with spaces) to width `w`. -/
def padLeft (s : String) (w : Nat) : String :=
  String.mk (List.replicate (w - s.length) ' ') ++ s

/-- The summary string built by `parse_ndx` (gmx_parser.py lines 36-44). -/
def ndxSummary (groups : List (String × List Int)) : String :=
  let nameW := (groups.map (fun e => e.1.length)).foldl max 0
  let labelW := nameW + 1
  let countW := (natStr ((groups.map (fun e => e.2.length)).foldl max 0)).length
  let idxW := (intStr ((groups.length : Int) - 1)).length
  let rows := groups.enum.map (fun p =>
    let i := p.1
    let label := p.2.1 ++ ":"
    "  (" ++ natStr i ++ ") " ++ String.mk (List.replicate (idxW - (natStr i).length) ' ')
      ++ padRight label labelW ++ " " ++ padLeft (natStr p.2.2.length) countW ++ " atoms\n")
  String.join rows

/-- `parse_ndx` (gmx_parser.py lines 8-46): the ordered group dict and the
formatted summary, or the propagated `ValueError` message. -/
def parseNdx (lines : List String) : Except String (List (String × List Int) × String) :=
  (ndxFold { cur := none, groups := [] } lines).map (fun st => (st.groups, ndxSummary st.groups))

/-- A well-formed value token: nonempty, no whitespace, no semicolon.
Every token stored by the parser satisfies this (tokens come from
`str.split()` of a regex capture that excludes `;`). -/
def TokOk (cs : List Char) : Prop := cs ≠ [] ∧ ∀ c ∈ cs, pyIsSpace c = false ∧ c ≠ ';'

/-- Well-formedness of a stored float value: a finite decimal is in the
canonical form produced by `normDec`. -/
def FloatOk : PyFloat → Prop
  | .fin m e => (m = 0 → e = 0) ∧ (m ≠ 0 → ¬(10 : Int) ∣ m)
  | _ => True

/-- The shapes of values `MDP._convert_to_numeric` can store for a
parameter: the converter pass that produced them determines the
homogeneous element type, lists never have exactly one element, and
string tokens are exactly those rejected by `int()` and `float()`. -/
inductive GoodVal : PyVal → Prop
  | int (n : Int) : GoodVal (.scalar (.int n))
  | float (f : PyFloat) (h : FloatOk f) : GoodVal (.scalar (.float f))
  | str (t : String) (h : TokOk t.data) (hi : pyIntChars t.data = none)
      (hf : pyFloatChars t.data = none) : GoodVal (.scalar (.str t))
  | ints (ns : List Int) (h : ns.length ≠ 1) : GoodVal (.list (ns.map .int))
  | floats (fs : List PyFloat) (h2 : 2 ≤ fs.length) (hok : ∀ f ∈ fs, FloatOk f) :
      GoodVal (.list (fs.map .float))
  | strs (ts : List String) (h2 : 2 ≤ ts.length) (hok : ∀ t ∈ ts, TokOk t.data)
      (hf : ∃ t ∈ ts, pyFloatChars t.data = none) : GoodVal (.list (ts.map .str))

/-- The keys `MDP.read` can store for a genuine parameter, under the
round-trip hypothesis that no parameter key begins with `B` or `C`. -/
def KeyOk (k : String) : Prop :=
  k.data ≠ [] ∧ stripCore k.data = k.data ∧ ('=' ∉ k.data) ∧
  k.data.head? ≠ some ';' ∧ k.data.head? ≠ some 'B' ∧ k.data.head? ≠ some 'C'

/-- Comment text as stored by `MDP.read`: invariant under stripping. -/
def TxtOk (t : String) : Prop := stripCore t.data = t.data

/-- Structure of (a suffix of) a parsed document given the blank/comment
counters before it: blanks are numbered consecutively from `b + 1` in
order, comments from `c + 1`, and parameter entries have well-formed keys
and values; `bf`/`cf` are the counters after the suffix. -/
inductive DocOk : Nat → Nat → Nat → Nat → List (String × PyVal) → Prop
  | nil (b c : Nat) : DocOk b c b c []
  | blank (b c bf cf : Nat) (d : List (String × PyVal)) (h : DocOk (b + 1) c bf cf d) :
      DocOk b c bf cf ((bKey (b + 1), .scalar (.str "")) :: d)
  | comment (b c bf cf : Nat) (d : List (String × PyVal)) (t : String) (ht : TxtOk t)
      (h : DocOk b (c + 1) bf cf d) :
      DocOk b c bf cf ((cKey (c + 1), .scalar (.str t)) :: d)
  | param (b c bf cf : Nat) (d : List (String × PyVal)) (k : String) (v : PyVal)
      (hk : KeyOk k) (hv : GoodVal v) (h : DocOk b c bf cf d) :
      DocOk b c bf cf ((k, v) :: d)

/-- Round-trip hypothesis on a source line: if it parses as a parameter,
its key does not begin with `B` or `C` (such a key would be re-serialized
as a blank or comment line, see `writeEntry`). -/
def lineKeyOK (l : String) : Bool :=
  match classifyLine l with
  | .param k _ => !(k.data.head? = some 'B') && !(k.data.head? = some 'C')
  | _ => true

/-- Header test on a raw index-file line. -/
def isHeaderLine (l : String) : Bool := isHeaderCh (pyStrip l).data

/-- Some line of the index file is a non-header line carrying a token
`int()` rejects, and a group header occurs before it. -/
def HasBadNdx (lines : List String) : Prop :=
  ∃ pre l post, lines = pre ++ l :: post ∧ (∃ h0 ∈ pre, isHeaderLine h0 = true) ∧
    isHeaderLine l = false ∧ ∃ t ∈ splitCh (pyStrip l).data, pyIntChars t = none

/-- The concatenated integer members of a block of body lines. -/
def bodyVals : List String → Option (List Int)
  | [] => some []
  | l :: ls =>
    match optMapM pyIntChars (splitCh (pyStrip l).data) with
    | some ns => (bodyVals ls).map (ns ++ ·)
    | none => none

/-- Lookup in an ordered group dict. -/
def odLookup (d : List (String × List Int)) (k : String) : Option (List Int) :=
  match d with
  | [] => none
  | (k0, v) :: rest => if k0 = k then some v else odLookup rest k

/-- Char-level join with single spaces (the shape of `" ".join(toks)`). -/
def interChar : List (List Char) → List Char
  | [] => []
  | [t] => t
  | t :: rest => t ++ ' ' :: interChar rest

/-- Well-formed printed scalar token: nonempty, whitespace-free,
semicolon-free. -/
def ScalarTok (x : PyScalar) : Prop :=
  (scalarStr x).data ≠ [] ∧ ∀ c ∈ (scalarStr x).data, pyIsSpace c = false ∧ c ≠ ';'

/-! ### Generic lemmas about token conversion -/

theorem optMapM_over_mk {β : Type} (f : List Char → Option β) (ts : List (List Char)) :
    optMapM (fun s => f s.data) (ts.map String.mk) = optMapM f ts := by
  induction ts with
  | nil => rfl
  | cons t ts ih => simp only [List.map_cons, optMapM, ih]

theorem optMapM_none_of_mem {α β : Type} (f : α → Option β) {l : List α} {a : α}
    (ha : a ∈ l) (hf : f a = none) : optMapM f l = none := by
  induction l with
  | nil => cases ha
  | cons x xs ih =>
    rcases List.mem_cons.mp ha with h | h
    · subst h; simp [optMapM, hf]
    · simp only [optMapM, ih h]
      cases f x <;> simp

theorem optMapM_length {α β : Type} (f : α → Option β) {l : List α} {r : List β}
    (h : optMapM f l = some r) : r.length = l.length := by
  induction l generalizing r with
  | nil => simp only [optMapM, Option.some.injEq] at h; subst h; rfl
  | cons x xs ih =>
    simp only [optMapM] at h
    cases hx : f x with
    | none => rw [hx] at h; cases h
    | some y =>
      rw [hx] at h
      cases hr : optMapM f xs with
      | none => rw [hr] at h; cases h
      | some ys => rw [hr] at h; simp at h; subst h; simp [ih hr]

theorem optMapM_pyInt_split (s : String) :
    optMapM pyInt (pySplit s) = optMapM pyIntChars (splitCh s.data) :=
  optMapM_over_mk pyIntChars (splitCh s.data)

theorem optMapM_pyFloat_split (s : String) :
    optMapM pyFloat (pySplit s) = optMapM pyFloatChars (splitCh s.data) :=
  optMapM_over_mk pyFloatChars (splitCh s.data)

/-- Claim C2: if every whitespace-separated token of a parameter value
converts under `int()`, the inferred value is that single `int` for one
token and the ordered list of `int`s for several; if some token fails
`int()` but every token converts under `float()`, the same single-vs-list
rule applies to the `float` values, in token order. -/
theorem c2_numeric_inference (s : String) :
    (∀ n : Int, optMapM pyInt (pySplit s) = some [n] →
      convertToNumeric s = .scalar (.int n)) ∧
    (∀ ns : List Int, optMapM pyInt (pySplit s) = some ns → 2 ≤ ns.length →
      convertToNumeric s = .list (ns.map .int)) ∧
    (∀ f : PyFloat, (∃ t ∈ pySplit s, pyInt t = none) →
      optMapM pyFloat (pySplit s) = some [f] →
      convertToNumeric s = .scalar (.float f)) ∧
    (∀ fs : List PyFloat, (∃ t ∈ pySplit s, pyInt t = none) →
      optMapM pyFloat (pySplit s) = some fs → 2 ≤ fs.length →
      convertToNumeric s = .list (fs.map .float)) := by
  have hib := optMapM_pyInt_split s
  have hfb := optMapM_pyFloat_split s
  refine ⟨?_, ?_, ?_, ?_⟩
  · intro n h
    rw [hib] at h
    simp [convertToNumeric, h]
  · intro ns h hlen
    rw [hib] at h
    rcases ns with _ | ⟨a, _ | ⟨b, t⟩⟩
    · simp [convertToNumeric, h]
    · simp at hlen
    · simp [convertToNumeric, h]
  · intro f hex hf
    obtain ⟨t, ht, htn⟩ := hex
    have hnone : optMapM pyInt (pySplit s) = none := optMapM_none_of_mem pyInt ht htn
    rw [hib] at hnone
    rw [hfb] at hf
    simp [convertToNumeric, hnone, hf]
  · intro fs hex hf hlen
    obtain ⟨t, ht, htn⟩ := hex
    have hnone : optMapM pyInt (pySplit s) = none := optMapM_none_of_mem pyInt ht htn
    rw [hib] at hnone
    rw [hfb] at hf
    rcases fs with _ | ⟨a, _ | ⟨b, t2⟩⟩
    · simp [convertToNumeric, hnone, hf]
    · simp at hlen
    · simp [convertToNumeric, hnone, hf]

theorem c2_numeric_inference_witness :
    convertToNumeric "500000" = .scalar (.int 500000) ∧
    convertToNumeric "300 300" = .list [.int 300, .int 300] ∧
    convertToNumeric "2.5" = .scalar (.float (mkFin 25 (-1))) ∧
    convertToNumeric "1 2.5" = .list [.float (mkFin 1 0), .float (mkFin 25 (-1))] :=
  ⟨(c2_numeric_inference "500000").1 500000 (by decide),
   (c2_numeric_inference "300 300").2.1 [300, 300] (by decide) (by decide),
   (c2_numeric_inference "2.5").2.2.1 (mkFin 25 (-1)) ⟨"2.5", by decide, by decide⟩ (by decide),
   (c2_numeric_inference "1 2.5").2.2.2 [mkFin 1 0, mkFin 25 (-1)]
     ⟨"2.5", by decide, by decide⟩ (by decide) (by decide)⟩

/-- Claim C3 is false on the code: the value `"abc def"` (two tokens, both
non-numeric) is inferred as the list `["abc", "def"]` of token strings,
not as the original single string. -/
theorem c3_counterexample :
    convertToNumeric "abc def" = .list [.str "abc", .str "def"] ∧
    convertToNumeric "abc def" ≠ .scalar (.str "abc def") :=
  ⟨by decide, by decide⟩

/-- Claim C3 (amended): if some token of the value is rejected by both
`int()` and `float()`, a single-token value is inferred as that token
string, and a multi-token value as the ordered list of its token strings
(not as one joined string). -/
theorem c3_nonnumeric_inference (s : String)
    (h : ∃ t ∈ pySplit s, pyInt t = none ∧ pyFloat t = none) :
    (∀ t : String, pySplit s = [t] → convertToNumeric s = .scalar (.str t)) ∧
    (2 ≤ (pySplit s).length → convertToNumeric s = .list ((pySplit s).map .str)) := by
  obtain ⟨t, ht, hti, htf⟩ := h
  have hni : optMapM pyIntChars (splitCh s.data) = none := by
    rw [← optMapM_pyInt_split]; exact optMapM_none_of_mem pyInt ht hti
  have hnf : optMapM pyFloatChars (splitCh s.data) = none := by
    rw [← optMapM_pyFloat_split]; exact optMapM_none_of_mem pyFloat ht htf
  constructor
  · intro t0 h0
    rcases hsp : splitCh s.data with _ | ⟨cs, _ | ⟨cs2, r⟩⟩ <;>
      simp [pySplit, hsp] at h0
    rw [hsp] at hni hnf
    simp [convertToNumeric, hsp, hni, hnf, h0]
  · intro hlen
    simp only [pySplit, List.length_map] at hlen
    rcases hsp : splitCh s.data with _ | ⟨cs, _ | ⟨cs2, r⟩⟩ <;>
      rw [hsp] at hlen <;> try simp at hlen
    rw [hsp] at hni hnf
    simp [convertToNumeric, hsp, hni, hnf, pySplit, List.map_map]

theorem c3_nonnumeric_inference_witness :
    convertToNumeric "abc def" = .list ((pySplit "abc def").map .str) :=
  (c3_nonnumeric_inference "abc def" ⟨"abc", by decide, by decide, by decide⟩).2 (by decide)

/-- Claim C4 is false on the code: parsing `"key ="` stores the empty list
`[]` (the `int` converter pass succeeds on zero tokens), not the empty
string. -/
theorem c4_counterexample :
    readMDP "a.mdp" ["key ="] = .ok [("key", PyVal.list [])] ∧
    PyVal.list [] ≠ PyVal.scalar (.str "") :=
  ⟨by decide, by decide⟩

/-- Claim C4 (amended): a parameter value that splits into no tokens (in
particular the empty value of `"key ="`) is stored as the empty list, and
`MDP.read` on the line `"key ="` stores exactly that. -/
theorem c4_empty_value (v : String) (h : pySplit v = []) :
    convertToNumeric v = .list [] := by
  have hsp : splitCh v.data = [] := by
    have := congrArg List.length h
    simpa [pySplit] using this
  simp [convertToNumeric, hsp, optMapM]

theorem c4_empty_value_witness : convertToNumeric "" = .list [] :=
  c4_empty_value "" (by decide)

/-- Claim C5 is false on the code: on the two-group sample of spec section
6 the parsed groups are as claimed, but the summary is not the two lines
shown there — the name column is `longest name + 1` wide, so the shorter
name `GroupName:` is followed by two spaces, not one. -/
theorem c5_counterexample :
    parseNdx ["[ GroupName ]", "1 2 3 4 5", "6 7 8", "[ OtherGroup ]", "9 10"] ≠
      .ok ([("GroupName", [1, 2, 3, 4, 5, 6, 7, 8]), ("OtherGroup", [9, 10])],
        "  (0) GroupName: 8 atoms\n  (1) OtherGroup: 2 atoms\n") := by decide

/-- Claim C5 (amended): parsing the section-6 sample yields the claimed
group mapping, and a summary laid out by the section-4.1 width rules,
which pad `GroupName:` to the width of `OtherGroup:` plus one and hence
put two spaces before the count `8`. -/
theorem c5_sample_parse :
    parseNdx ["[ GroupName ]", "1 2 3 4 5", "6 7 8", "[ OtherGroup ]", "9 10"] =
      .ok ([("GroupName", [1, 2, 3, 4, 5, 6, 7, 8]), ("OtherGroup", [9, 10])],
        "  (0) GroupName:  8 atoms\n  (1) OtherGroup: 2 atoms\n") := by decide

/-- Claim C7: when `MDP.read` fails on any line, the instance mapping is
untouched — entries are committed with a single `update` only after the
whole file has parsed. -/
theorem c7_failfast_no_mutation (inst : List (String × PyVal)) (fname : String)
    (lines : List String) (e : String) (h : (readMDPInto inst fname lines).2 = some e) :
    (readMDPInto inst fname lines).1 = inst := by
  unfold readMDPInto at h ⊢
  cases hf : readFold fname { data := [], ib := 0, ic := 0 } lines with
  | ok st => rw [hf] at h; cases h
  | error e2 => rfl

theorem c7_failfast_no_mutation_witness :
    (readMDPInto [("a", PyVal.scalar (.int 1))] "f.mdp" ["integrator = steep", "@@@"]).2 =
      some (mkErr "f.mdp" "@@@") ∧
    (readMDPInto [("a", PyVal.scalar (.int 1))] "f.mdp" ["integrator = steep", "@@@"]).1 =
      [("a", PyVal.scalar (.int 1))] :=
  ⟨by decide,
   c7_failfast_no_mutation [("a", PyVal.scalar (.int 1))] "f.mdp"
     ["integrator = steep", "@@@"] (mkErr "f.mdp" "@@@") (by decide)⟩

/-- Claim C10: `MDP.write` chooses an entry's rendering solely from the
first character of its key: a key starting with `B` is emitted as a bare
blank line (key and value dropped), a key starting with `C` as the comment
line `; str(value)` (key dropped), and only other keys as `key = value`
(subject to the `skipempty` test). -/
theorem c10_write_key_dispatch (skipempty : Bool) (k : String) (v : PyVal) :
    (k.data.head? = some 'B' → writeEntry skipempty k v = some "") ∧
    (k.data.head? = some 'C' → writeEntry skipempty k v = some ("; " ++ pyStr v)) ∧
    (k.data.head? ≠ some 'B' → k.data.head? ≠ some 'C' →
      writeEntry skipempty k v =
        if skipempty && isEmptyVal v then none else some (k ++ " = " ++ valStr v)) := by
  refine ⟨fun h => by simp [writeEntry, h], fun h => by simp [writeEntry, h], fun hB hC => ?_⟩
  unfold writeEntry
  cases h : k.data.head? with
  | none => rfl
  | some c =>
    rw [h] at hB hC
    have hcB : c ≠ 'B' := fun hc => hB (by rw [hc])
    have hcC : c ≠ 'C' := fun hc => hC (by rw [hc])
    rcases eq_or_ne c 'B' with hc | hc
    · exact absurd hc hcB
    rcases eq_or_ne c 'C' with hc2 | hc2
    · exact absurd hc2 hcC
    simp [hc, hc2]

theorem c10_write_key_dispatch_witness :
    writeEntry false "Bref" (PyVal.scalar (.int 5)) = some "" ∧
    writeEntry false "Cref" (PyVal.scalar (.int 5)) =
      some ("; " ++ pyStr (PyVal.scalar (.int 5))) ∧
    writeEntry false "nsteps" (PyVal.scalar (.int 5)) =
      (if false && isEmptyVal (PyVal.scalar (.int 5)) then none
       else some ("nsteps" ++ " = " ++ valStr (PyVal.scalar (.int 5)))) :=
  ⟨(c10_write_key_dispatch false "Bref" (PyVal.scalar (.int 5))).1 (by decide),
   (c10_write_key_dispatch false "Cref" (PyVal.scalar (.int 5))).2.1 (by decide),
   (c10_write_key_dispatch false "nsteps" (PyVal.scalar (.int 5))).2.2 (by decide) (by decide)⟩

/-! ### Lemmas about stripping -/

theorem dropWhile_eq_self_of_head {p : Char → Bool} {l : List Char}
    (h : ∀ c, l.head? = some c → p c = false) : l.dropWhile p = l := by
  cases l with
  | nil => rfl
  | cons c t => rw [List.dropWhile_cons, h c rfl]; simp

theorem head?_dropWhile {p : Char → Bool} {l : List Char} {c : Char}
    (h : (l.dropWhile p).head? = some c) : p c = false := by
  induction l with
  | nil => simp [List.dropWhile] at h
  | cons x xs ih =>
    rw [List.dropWhile_cons] at h
    by_cases hx : p x
    · rw [if_pos hx] at h; exact ih h
    · rw [if_neg hx] at h
      simp at h
      subst h
      simpa using hx

theorem ltrim_head {cs : List Char} {c : Char} (h : (ltrim cs).head? = some c) :
    pyIsSpace c = false := head?_dropWhile h

theorem ltrim_eq_self {cs : List Char}
    (h : ∀ c, cs.head? = some c → pyIsSpace c = false) : ltrim cs = cs :=
  dropWhile_eq_self_of_head h

theorem rtrim_eq_self {cs : List Char}
    (h : ∀ c, cs.getLast? = some c → pyIsSpace c = false) : rtrim cs = cs := by
  unfold rtrim
  rw [dropWhile_eq_self_of_head, List.reverse_reverse]
  intro c hc
  rw [List.head?_reverse] at hc
  exact h c hc

theorem rtrim_getLast {cs : List Char} {c : Char} (h : (rtrim cs).getLast? = some c) :
    pyIsSpace c = false := by
  unfold rtrim at h
  rw [← List.head?_reverse, List.reverse_reverse] at h
  exact head?_dropWhile h

theorem rtrim_front (cs : List Char) : rtrim cs <+: cs := by
  have h : List.dropWhile pyIsSpace cs.reverse <:+ cs.reverse := List.dropWhile_suffix pyIsSpace
  have h3 := List.reverse_prefix.mpr h
  rw [List.reverse_reverse] at h3
  exact h3

theorem head?_rtrim {cs : List Char} {c : Char} (h : (rtrim cs).head? = some c) :
    cs.head? = some c := by
  obtain ⟨t, ht⟩ := rtrim_front cs
  cases hr : rtrim cs with
  | nil => rw [hr] at h; cases h
  | cons a b =>
    rw [hr] at h ht
    simp at h
    rw [← ht, ← h]
    rfl

theorem stripCore_head {cs : List Char} {c : Char} (h : (stripCore cs).head? = some c) :
    pyIsSpace c = false := ltrim_head (head?_rtrim h)

theorem stripCore_getLast {cs : List Char} {c : Char} (h : (stripCore cs).getLast? = some c) :
    pyIsSpace c = false := rtrim_getLast h

theorem ltrim_stripCore (cs : List Char) : ltrim (stripCore cs) = stripCore cs :=
  ltrim_eq_self (fun _ h => stripCore_head h)

theorem rtrim_stripCore (cs : List Char) : rtrim (stripCore cs) = stripCore cs :=
  rtrim_eq_self (fun _ h => stripCore_getLast h)

theorem stripCore_stripCore (cs : List Char) : stripCore (stripCore cs) = stripCore cs := by
  show rtrim (ltrim (stripCore cs)) = stripCore cs
  rw [ltrim_stripCore, rtrim_stripCore]

theorem stripCore_eq_self {cs : List Char}
    (hh : ∀ c, cs.head? = some c → pyIsSpace c = false)
    (hl : ∀ c, cs.getLast? = some c → pyIsSpace c = false) : stripCore cs = cs := by
  show rtrim (ltrim cs) = cs
  rw [ltrim_eq_self hh, rtrim_eq_self hl]

/-! ### Classification and fold lemmas for `MDP.read` -/

theorem commentMatch_none {s : String} (h0 : ltrim s.data = s.data)
    (h : s.data.head? ≠ some ';') : commentMatch s = none := by
  unfold commentMatch
  rw [show s.data.dropWhile pyIsSpace = s.data from h0]
  cases hd : s.data with
  | nil => rfl
  | cons c t =>
    rw [hd] at h
    simp only [List.head?_cons, ne_eq, Option.some.injEq] at h
    simp [h]

theorem classify_bad {l : String} (h1 : pyStrip l ≠ "")
    (h2 : (pyStrip l).data.head? ≠ some ';') (h3 : paramMatch (pyStrip l) = none) :
    classifyLine l = .bad := by
  unfold classifyLine
  rw [if_neg h1]
  have hc : commentMatch (pyStrip l) = none := by
    refine commentMatch_none ?_ h2
    exact ltrim_stripCore l.data
  rw [hc, h3]

theorem readFold_cons (f : String) (st : RSt) (l : String) (ls : List String) :
    readFold f st (l :: ls) =
      match readStep f st l with
      | .ok st2 => readFold f st2 ls
      | .error e => .error e := rfl

theorem readFold_append (f : String) (st : RSt) (xs ys : List String) :
    readFold f st (xs ++ ys) =
      match readFold f st xs with
      | .ok st2 => readFold f st2 ys
      | .error e => .error e := by
  induction xs generalizing st with
  | nil => rfl
  | cons x xs ih =>
    rw [List.cons_append]
    cases hs : readStep f st x with
    | ok st2 =>
      have e1 : readFold f st (x :: (xs ++ ys)) = readFold f st2 (xs ++ ys) := by
        rw [readFold_cons, hs]
      have e2 : readFold f st (x :: xs) = readFold f st2 xs := by
        rw [readFold_cons, hs]
      rw [e1, e2]
      exact ih st2
    | error e =>
      have e1 : readFold f st (x :: (xs ++ ys)) = .error e := by
        rw [readFold_cons, hs]
      have e2 : readFold f st (x :: xs) = .error e := by
        rw [readFold_cons, hs]
      rw [e1, e2]

theorem readFold_ok (f : String) (xs : List String)
    (h : ∀ x ∈ xs, classifyLine x ≠ .bad) :
    ∀ st, ∃ st2, readFold f st xs = .ok st2 := by
  induction xs with
  | nil => exact fun st => ⟨st, rfl⟩
  | cons x xs ih =>
    intro st
    have hx := h x (List.mem_cons_self x xs)
    unfold readFold
    cases hc : classifyLine x with
    | bad => exact absurd hc hx
    | blank => exact (by simp [readStep, hc]; exact ih (fun y hy => h y (List.mem_cons_of_mem x hy)) _)
    | comment t => exact (by simp [readStep, hc]; exact ih (fun y hy => h y (List.mem_cons_of_mem x hy)) _)
    | param k v => exact (by simp [readStep, hc]; exact ih (fun y hy => h y (List.mem_cons_of_mem x hy)) _)

/-- Claim C6 (amended): a line that is nonempty after trimming, does not
start with `;`, and fails the parameter pattern makes `MDP.read` abort with
a `ParseError` whose message carries the file's base name and the line's
whitespace-trimmed text (the raw text is stripped before being embedded in
the message). -/
theorem c6_unrecognized_line (fname : String) (pre post : List String) (l : String)
    (hpre : ∀ x ∈ pre, classifyLine x ≠ .bad)
    (h1 : pyStrip l ≠ "") (h2 : (pyStrip l).data.head? ≠ some ';')
    (h3 : paramMatch (pyStrip l) = none) :
    readMDP fname (pre ++ l :: post) = .error (mkErr (pyBasename fname) (pyStrip l)) ∧
    List.IsInfix (pyBasename fname).data (mkErr (pyBasename fname) (pyStrip l)).data ∧
    List.IsInfix (pyStrip l).data (mkErr (pyBasename fname) (pyStrip l)).data := by
  obtain ⟨st2, hst⟩ := readFold_ok fname pre hpre { data := [], ib := 0, ic := 0 }
  have hstep : readStep fname st2 l = .error (mkErr (pyBasename fname) (pyStrip l)) := by
    unfold readStep
    rw [classify_bad h1 h2 h3]
  refine ⟨?_, ?_, ?_⟩
  · unfold readMDP
    rw [readFold_append, hst]
    show (readFold fname st2 (l :: post)).map RSt.data = _
    unfold readFold
    rw [hstep]
    rfl
  · exact ⟨pyQuote.data,
      (pyQuote ++ ": unknown line in mdp file, " ++ pyQuote ++ pyStrip l ++ pyQuote).data,
      by simp [mkErr, pyRepr]⟩
  · exact ⟨(pyQuote ++ pyBasename fname ++ pyQuote ++ ": unknown line in mdp file, "
        ++ pyQuote).data, pyQuote.data,
      by simp [mkErr, pyRepr]⟩

theorem c6_unrecognized_line_witness :
    readMDP "dir/sample.mdp" ["  ??? flags"] = .error (mkErr "sample.mdp" "??? flags") ∧
    List.IsInfix "sample.mdp".data (mkErr "sample.mdp" "??? flags").data ∧
    List.IsInfix "??? flags".data (mkErr "sample.mdp" "??? flags").data :=
  c6_unrecognized_line "dir/sample.mdp" [] [] "  ??? flags"
    (by simp) (by decide) (by decide) (by decide)

/-- Claim C6 is false as stated: the `ParseError` message embeds the
stripped line, so for the raw line `"  ??? flags"` (leading whitespace) the
message does not contain the raw text. -/
theorem c6_counterexample :
    readMDP "dir/sample.mdp" ["  ??? flags"] = .error (mkErr "sample.mdp" "??? flags") ∧
    ¬ List.IsInfix "  ??? flags".data (mkErr "sample.mdp" "??? flags").data :=
  ⟨by decide, by decide⟩

/-! ### Lemmas about the ordered group dict and `parse_ndx` -/

theorem odLookup_odSet_self (d : List (String × List Int)) (k : String) (v : List Int) :
    odLookup (odSet d k v) k = some v := by
  induction d with
  | nil => simp [odSet, odLookup]
  | cons e rest ih =>
    by_cases h : e.1 = k
    · simp [odSet, h, odLookup]
    · simp [odSet, h, odLookup, ih]

theorem odLookup_odSet_other (d : List (String × List Int)) (k : String) (v : List Int)
    (k2 : String) (h : k2 ≠ k) : odLookup (odSet d k v) k2 = odLookup d k2 := by
  induction d with
  | nil =>
    simp only [odSet, odLookup]
    rw [if_neg (fun hh => h hh.symm)]
  | cons e rest ih =>
    by_cases he : e.1 = k
    · simp only [odSet, if_pos he, odLookup]
      rw [if_neg (fun hh => h hh.symm), if_neg (fun hh : e.1 = k2 => h (hh.symm.trans he))]
    · simp only [odSet, if_neg he, odLookup]
      by_cases hk2 : e.1 = k2 <;> simp [hk2, ih]

theorem odLookup_odExtend_self (d : List (String × List Int)) (k : String) (ns : List Int) :
    odLookup (odExtend d k ns) k = (odLookup d k).map (· ++ ns) := by
  induction d with
  | nil => simp [odExtend, odLookup]
  | cons e rest ih =>
    by_cases h : e.1 = k
    · simp [odExtend, h, odLookup]
    · simp [odExtend, h, odLookup, ih]

theorem odLookup_odExtend_other (d : List (String × List Int)) (k : String) (ns : List Int)
    (k2 : String) (h : k2 ≠ k) : odLookup (odExtend d k ns) k2 = odLookup d k2 := by
  induction d with
  | nil => simp [odExtend, odLookup]
  | cons e rest ih =>
    by_cases he : e.1 = k
    · have hne2 : (k : String) ≠ k2 := fun hh => h hh.symm
      simp only [odExtend, if_pos he, odLookup, he]
      rw [if_neg hne2, if_neg hne2]
    · simp only [odExtend, if_neg he, odLookup]
      by_cases hk2 : e.1 = k2 <;> simp [hk2, ih]

theorem odSet_keys (d : List (String × List Int)) (k : String) (v : List Int) :
    (odSet d k v).map Prod.fst =
      (if k ∈ d.map Prod.fst then d.map Prod.fst else d.map Prod.fst ++ [k]) := by
  induction d with
  | nil => simp [odSet]
  | cons e rest ih =>
    by_cases h : e.1 = k
    · simp [odSet, h]
    · simp only [odSet, if_neg h, List.map_cons, ih]
      by_cases hm : k ∈ rest.map Prod.fst <;> simp [hm, Ne.symm h]

theorem odExtend_keys (d : List (String × List Int)) (k : String) (ns : List Int) :
    (odExtend d k ns).map Prod.fst = d.map Prod.fst := by
  induction d with
  | nil => rfl
  | cons e rest ih =>
    by_cases h : e.1 = k <;> simp [odExtend, h, ih]

theorem odExtend_nil (d : List (String × List Int)) (k : String) :
    odExtend d k [] = d := by
  induction d with
  | nil => rfl
  | cons e rest ih =>
    obtain ⟨k0, v0⟩ := e
    by_cases h : k0 = k <;> simp [odExtend, h, ih]

theorem odExtend_append (d : List (String × List Int)) (k : String) (a b : List Int) :
    odExtend (odExtend d k a) k b = odExtend d k (a ++ b) := by
  induction d with
  | nil => rfl
  | cons e rest ih =>
    by_cases h : e.1 = k
    · simp [odExtend, h]
    · simp [odExtend, h, ih]

theorem ndxFold_cons (st : NSt) (l : String) (ls : List String) :
    ndxFold st (l :: ls) =
      match ndxStep st l with
      | .ok st2 => ndxFold st2 ls
      | .error e => .error e := rfl

theorem ndxFold_append (st : NSt) (xs ys : List String) :
    ndxFold st (xs ++ ys) =
      match ndxFold st xs with
      | .ok st2 => ndxFold st2 ys
      | .error e => .error e := by
  induction xs generalizing st with
  | nil => rfl
  | cons x xs ih =>
    rw [List.cons_append]
    cases hs : ndxStep st x with
    | ok st2 =>
      have e1 : ndxFold st (x :: (xs ++ ys)) = ndxFold st2 (xs ++ ys) := by
        rw [ndxFold_cons, hs]
      have e2 : ndxFold st (x :: xs) = ndxFold st2 xs := by
        rw [ndxFold_cons, hs]
      rw [e1, e2]
      exact ih st2
    | error e =>
      have e1 : ndxFold st (x :: (xs ++ ys)) = .error e := by rw [ndxFold_cons, hs]
      have e2 : ndxFold st (x :: xs) = .error e := by rw [ndxFold_cons, hs]
      rw [e1, e2]

/-- Unfolding equation of `ndxStep` in terms of the stripped line. -/
theorem ndxStep_eq (st : NSt) (line : String) :
    ndxStep st line =
      (if isHeaderCh (pyStrip line).data = true then
        .ok { cur := some (headerName (pyStrip line).data),
              groups := odSet st.groups (headerName (pyStrip line).data) [] }
      else
        match st.cur with
        | none => .ok st
        | some g =>
          match optMapM pyIntChars (splitCh (pyStrip line).data) with
          | some ns => .ok { cur := st.cur, groups := odExtend st.groups g ns }
          | none =>
            .error ("invalid literal for int() with base 10: " ++
              pyRepr (String.mk
                (((splitCh (pyStrip line).data).find?
                  (fun t => (pyIntChars t).isNone)).getD [])))) := rfl

theorem rtrim_concat_space (y : List Char) (c : Char) (hc : pyIsSpace c = true) :
    rtrim (y ++ [c]) = rtrim y := by
  unfold rtrim
  rw [List.reverse_append]
  simp [List.dropWhile_cons, hc]

theorem ltrim_cons_space (c : Char) (y : List Char) (hc : pyIsSpace c = true) :
    ltrim (c :: y) = ltrim y := by
  unfold ltrim
  simp [List.dropWhile_cons, hc]

theorem g_head_not_space {g : String} (hg : stripCore g.data = g.data) :
    ∀ c, g.data.head? = some c → pyIsSpace c = false := by
  intro c h
  rw [← hg] at h
  exact stripCore_head h

theorem g_last_not_space {g : String} (hg : stripCore g.data = g.data) :
    ∀ c, g.data.getLast? = some c → pyIsSpace c = false := by
  intro c h
  rw [← hg] at h
  exact stripCore_getLast h

/-- The header line `"[ " ++ g ++ " ]"` built from a strip-invariant
nonempty name is recognised as a header: `current_group` becomes `g` and
`groups[g]` is re-bound to a fresh empty list (keeping the position of an
existing `g`). -/
theorem ndxStep_header (st : NSt) (g : String) (hg : stripCore g.data = g.data)
    (hne : g.data ≠ []) :
    ndxStep st ("[ " ++ g ++ " ]") = .ok { cur := some g, groups := odSet st.groups g [] } := by
  have hdata : ("[ " ++ g ++ " ]").data = '[' :: ' ' :: (g.data ++ [' ', ']']) := by
    have h1 : ("[ " ++ g ++ " ]").data = "[ ".data ++ g.data ++ " ]".data := by
      simp [String.data_append]
    rw [h1]
    rfl
  have hconcat : '[' :: ' ' :: (g.data ++ [' ', ']']) =
      ('[' :: ' ' :: (g.data ++ [' '])) ++ [']'] := by simp
  have hsc : stripCore ('[' :: ' ' :: (g.data ++ [' ', ']'])) =
      '[' :: ' ' :: (g.data ++ [' ', ']']) := by
    apply stripCore_eq_self
    · intro c h
      simp only [List.head?_cons, Option.some.injEq] at h
      rw [← h]
      rfl
    · intro c h
      rw [hconcat, List.getLast?_concat] at h
      rw [show c = ']' from (Option.some_inj.mp h).symm]
      rfl
  have hstripdata : (pyStrip ("[ " ++ g ++ " ]")).data = '[' :: ' ' :: (g.data ++ [' ', ']']) := by
    show stripCore ("[ " ++ g ++ " ]").data = _
    rw [hdata, hsc]
  have hhd : isHeaderCh ('[' :: ' ' :: (g.data ++ [' ', ']'])) = true := by
    unfold isHeaderCh
    rw [hconcat, List.getLast?_concat]
    rfl
  have hn2 : (' ' :: (g.data ++ [' ', ']'])).dropLast = ' ' :: (g.data ++ [' '])  := by
    have : (' ' :: (g.data ++ [' ', ']'])) = ((' ' :: (g.data ++ [' '])) ++ [']']) := by simp
    rw [this, List.dropLast_concat]
  have hn3 : stripCore (' ' :: (g.data ++ [' '])) = g.data := by
    have hlt1 : ltrim (' ' :: (g.data ++ [' '])) = ltrim (g.data ++ [' ']) :=
      ltrim_cons_space ' ' _ (by decide)
    have hhead : ∀ c, (g.data ++ [' ']).head? = some c → pyIsSpace c = false := by
      intro c h
      cases hgd : g.data with
      | nil => exact absurd hgd hne
      | cons a t =>
        rw [hgd] at h
        simp only [List.cons_append, List.head?_cons, Option.some.injEq] at h
        rw [← h]
        exact g_head_not_space hg a (by rw [hgd]; rfl)
    have hlt2 : ltrim (g.data ++ [' ']) = g.data ++ [' '] := ltrim_eq_self hhead
    have hrt : rtrim (g.data ++ [' ']) = g.data := by
      rw [rtrim_concat_space g.data ' ' (by decide), rtrim_eq_self (g_last_not_space hg)]
    show rtrim (ltrim (' ' :: (g.data ++ [' ']))) = g.data
    rw [hlt1, hlt2, hrt]
  have hname : headerName ('[' :: ' ' :: (g.data ++ [' ', ']'])) = g := by
    unfold headerName
    rw [List.drop_one]
    show String.mk (stripCore (' ' :: (g.data ++ [' ', ']'])).dropLast) = g
    rw [hn2, hn3]
  rw [ndxStep_eq, hstripdata]
  simp [hhd, hname]

/-- Folding the body lines of one block extends the current group by the
block's concatenated integers. -/
theorem ndx_body_fold (g : String) (body : List String)
    (hbody : ∀ b ∈ body, isHeaderLine b = false) (ns : List Int)
    (hns : bodyVals body = some ns) :
    ∀ d0, ndxFold { cur := some g, groups := d0 } body =
      .ok { cur := some g, groups := odExtend d0 g ns } := by
  induction body generalizing ns with
  | nil =>
    intro d0
    unfold bodyVals at hns
    simp at hns
    subst hns
    rw [odExtend_nil]
    rfl
  | cons b rest ih =>
    intro d0
    have hb : isHeaderCh (pyStrip b).data = false := hbody b (List.mem_cons_self b rest)
    unfold bodyVals at hns
    cases hm : optMapM pyIntChars (splitCh (pyStrip b).data) with
    | none => rw [hm] at hns; cases hns
    | some ns1 =>
      rw [hm] at hns
      cases hr : bodyVals rest with
      | none => rw [hr] at hns; cases hns
      | some ns2 =>
        rw [hr] at hns
        simp at hns
        have hstep : ndxStep { cur := some g, groups := d0 } b =
            .ok { cur := some g, groups := odExtend d0 g ns1 } := by
          rw [ndxStep_eq]
          simp only [hb, Bool.false_eq_true, if_false, hm]
        rw [ndxFold_cons, hstep]
        show ndxFold { cur := some g, groups := odExtend d0 g ns1 } rest = _
        rw [ih (fun y hy => hbody y (List.mem_cons_of_mem b hy)) ns2 hr (odExtend d0 g ns1)]
        rw [odExtend_append, hns]

/-- Claim C9: appending a block for group `g` to any index file that
parses makes the final block's (possibly empty) member list the value of
`g` — last occurrence wins — while `g` keeps the position of its first
occurrence in the ordered mapping and every other group is unchanged. -/
theorem c9_duplicate_group_replaces (ls : List String) (g : String) (body : List String)
    (d : List (String × List Int)) (s : String) (ns : List Int)
    (hok : parseNdx ls = .ok (d, s))
    (hg : stripCore g.data = g.data) (hne : g.data ≠ [])
    (hbody : ∀ b ∈ body, isHeaderLine b = false)
    (hns : bodyVals body = some ns) :
    ∃ d2 s2, parseNdx (ls ++ ("[ " ++ g ++ " ]") :: body) = .ok (d2, s2) ∧
      odLookup d2 g = some ns ∧
      (∀ k, k ≠ g → odLookup d2 k = odLookup d k) ∧
      d2.map Prod.fst =
        (if g ∈ d.map Prod.fst then d.map Prod.fst else d.map Prod.fst ++ [g]) := by
  unfold parseNdx at hok
  cases h0 : ndxFold { cur := none, groups := [] } ls with
  | error e => rw [h0] at hok; cases hok
  | ok st0 =>
    rw [h0] at hok
    simp only [Except.map, Except.ok.injEq, Prod.mk.injEq] at hok
    have hgroups : st0.groups = d := hok.1
    refine ⟨odExtend (odSet d g []) g ns, ndxSummary (odExtend (odSet d g []) g ns),
      ?_, ?_, ?_, ?_⟩
    · unfold parseNdx
      rw [ndxFold_append, h0]
      show (ndxFold st0 (("[ " ++ g ++ " ]") :: body)).map _ = _
      rw [ndxFold_cons, ndxStep_header st0 g hg hne, hgroups]
      show (ndxFold { cur := some g, groups := odSet d g [] } body).map _ = _
      rw [ndx_body_fold g body hbody ns hns (odSet d g [])]
      rfl
    · rw [odLookup_odExtend_self, odLookup_odSet_self]
      rfl
    · intro k hk
      rw [odLookup_odExtend_other _ _ _ _ hk, odLookup_odSet_other _ _ _ _ hk]
    · rw [odExtend_keys, odSet_keys]

theorem c9_duplicate_group_replaces_witness :
    ∃ d2 s2, parseNdx (["[ A ]", "1 2", "[ B ]", "3"] ++ ("[ " ++ "A" ++ " ]") :: ["4 5 6"]) =
        .ok (d2, s2) ∧
      odLookup d2 "A" = some [4, 5, 6] ∧
      (∀ k, k ≠ "A" → odLookup d2 k = odLookup [("A", [1, 2]), ("B", [3])] k) ∧
      d2.map Prod.fst =
        (if "A" ∈ [("A", [1, 2]), ("B", [3])].map Prod.fst
         then [("A", [1, 2]), ("B", [3])].map Prod.fst
         else [("A", [1, 2]), ("B", [3])].map Prod.fst ++ ["A"]) :=
  c9_duplicate_group_replaces ["[ A ]", "1 2", "[ B ]", "3"] "A" ["4 5 6"]
    [("A", [1, 2]), ("B", [3])] "  (0) A: 2 atoms\n  (1) B: 1 atoms\n" [4, 5, 6]
    (by decide) (by decide) (by decide) (by decide) (by decide)

theorem optMapM_some_mem {α β : Type} {f : α → Option β} {l : List α} {r : List β}
    (h : optMapM f l = some r) {a : α} (ha : a ∈ l) : ∃ b, f a = some b := by
  induction l generalizing r with
  | nil => cases ha
  | cons x xs ih =>
    simp only [optMapM] at h
    cases hx : f x with
    | none => rw [hx] at h; cases h
    | some y =>
      rw [hx] at h
      cases hr : optMapM f xs with
      | none => rw [hr] at h; cases h
      | some ys =>
        rcases List.mem_cons.mp ha with he | he
        · subst he; exact ⟨y, hx⟩
        · exact ih hr he

theorem optMapM_none_exists {α β : Type} {f : α → Option β} {l : List α}
    (h : optMapM f l = none) : ∃ a ∈ l, f a = none := by
  induction l with
  | nil => simp [optMapM] at h
  | cons x xs ih =>
    simp only [optMapM] at h
    cases hx : f x with
    | none => exact ⟨x, List.mem_cons_self x xs, hx⟩
    | some y =>
      rw [hx] at h
      cases hr : optMapM f xs with
      | none =>
        obtain ⟨a, ha, hfa⟩ := ih hr
        exact ⟨a, List.mem_cons_of_mem x ha, hfa⟩
      | some ys => rw [hr] at h; cases h

theorem ndxStep_header_of {x : String} (hx : isHeaderLine x = true) (st : NSt) :
    ndxStep st x = .ok ⟨some (headerName (pyStrip x).data),
      odSet st.groups (headerName (pyStrip x).data) []⟩ := by
  rw [ndxStep_eq]
  unfold isHeaderLine at hx
  simp [hx]

theorem ndxStep_skip {x : String} (hx : isHeaderLine x = false) {st : NSt} (hc : st.cur = none) :
    ndxStep st x = .ok st := by
  rw [ndxStep_eq]
  unfold isHeaderLine at hx
  simp [hx, hc]

theorem ndxStep_body {x : String} (hx : isHeaderLine x = false) {st : NSt} {gg : String}
    (hc : st.cur = some gg) {ns : List Int}
    (hm : optMapM pyIntChars (splitCh (pyStrip x).data) = some ns) :
    ndxStep st x = .ok ⟨st.cur, odExtend st.groups gg ns⟩ := by
  rw [ndxStep_eq]
  unfold isHeaderLine at hx
  simp [hx, hc, hm]

theorem ndxStep_err {x : String} (hx : isHeaderLine x = false) {st : NSt} {gg : String}
    (hc : st.cur = some gg)
    (hm : optMapM pyIntChars (splitCh (pyStrip x).data) = none) :
    ∃ e, ndxStep st x = .error e := by
  rw [ndxStep_eq]
  unfold isHeaderLine at hx
  simp [hx, hc, hm]

theorem ndxFold_cons_ok {st : NSt} {x : String} {st2 : NSt} (h : ndxStep st x = .ok st2)
    (xs : List String) : ndxFold st (x :: xs) = ndxFold st2 xs := by
  rw [ndxFold_cons, h]

theorem ndxFold_cons_err {st : NSt} {x : String} {e : String} (h : ndxStep st x = .error e)
    (xs : List String) : ndxFold st (x :: xs) = .error e := by
  rw [ndxFold_cons, h]

theorem ndxFold_error_iff (lines : List String) : ∀ st : NSt,
    (∃ e, ndxFold st lines = .error e) ↔
      (∃ pre l post, lines = pre ++ l :: post ∧
        (st.cur.isSome = true ∨ ∃ h0 ∈ pre, isHeaderLine h0 = true) ∧
        isHeaderLine l = false ∧
        ∃ t ∈ splitCh (pyStrip l).data, pyIntChars t = none) := by
  induction lines with
  | nil =>
    intro st
    constructor
    · rintro ⟨e, he⟩
      cases he
    · rintro ⟨pre, l, post, heq, -⟩
      cases pre <;> simp at heq
  | cons x xs ih =>
    intro st
    by_cases hx : isHeaderLine x = true
    · have hstep := ndxStep_header_of hx st
      rw [ndxFold_cons_ok hstep, ih]
      constructor
      · rintro ⟨pre1, l, post1, heq, -, hl, hbad⟩
        exact ⟨x :: pre1, l, post1, by rw [heq, List.cons_append],
          Or.inr ⟨x, List.mem_cons_self x pre1, hx⟩, hl, hbad⟩
      · rintro ⟨pre, l, post, heq, hcond, hl, hbad⟩
        cases pre with
        | nil =>
          simp at heq
          rw [← heq.1] at hl
          rw [hx] at hl
          cases hl
        | cons p pre1 =>
          rw [List.cons_append] at heq
          injection heq with h1 h2
          exact ⟨pre1, l, post, h2, Or.inl rfl, hl, hbad⟩
    · rw [Bool.not_eq_true] at hx
      cases hc : st.cur with
      | none =>
        have hstep := ndxStep_skip hx hc
        rw [ndxFold_cons_ok hstep, ih]
        constructor
        · rintro ⟨pre1, l, post1, heq, hcond, hl, hbad⟩
          rcases hcond with hcur | ⟨h0, hh0, hhdr⟩
          · rw [hc] at hcur
            cases hcur
          · exact ⟨x :: pre1, l, post1, by rw [heq, List.cons_append],
              Or.inr ⟨h0, List.mem_cons_of_mem x hh0, hhdr⟩, hl, hbad⟩
        · rintro ⟨pre, l, post, heq, hcond, hl, hbad⟩
          cases pre with
          | nil =>
            rcases hcond with hcur | ⟨h0, hh0, hhdr⟩
            · simp at hcur
            · cases hh0
          | cons p pre1 =>
            rw [List.cons_append] at heq
            injection heq with h1 h2
            refine ⟨pre1, l, post, h2, ?_, hl, hbad⟩
            rcases hcond with hcur | ⟨h0, hh0, hhdr⟩
            · simp at hcur
            · rcases List.mem_cons.mp hh0 with he | he
              · have hxh : isHeaderLine h0 = false := by rw [he, ← h1]; exact hx
                rw [hhdr] at hxh
                cases hxh
              · exact Or.inr ⟨h0, he, hhdr⟩
      | some gg =>
        cases hm : optMapM pyIntChars (splitCh (pyStrip x).data) with
        | some ns =>
          have hstep := ndxStep_body hx hc hm
          rw [ndxFold_cons_ok hstep, ih]
          constructor
          · rintro ⟨pre1, l, post1, heq, hcond, hl, hbad⟩
            exact ⟨x :: pre1, l, post1, by rw [heq, List.cons_append],
              Or.inl (by simp [hc]), hl, hbad⟩
          · rintro ⟨pre, l, post, heq, hcond, hl, hbad⟩
            cases pre with
            | nil =>
              simp at heq
              obtain ⟨t, ht, htn⟩ := hbad
              rw [← heq.1] at ht
              obtain ⟨b, hb⟩ := optMapM_some_mem hm ht
              rw [hb] at htn
              cases htn
            | cons p pre1 =>
              rw [List.cons_append] at heq
              injection heq with h1 h2
              exact ⟨pre1, l, post, h2, Or.inl (by simp [hc]), hl, hbad⟩
        | none =>
          obtain ⟨e, he⟩ := ndxStep_err hx hc hm
          constructor
          · exact fun _ => ⟨[], x, xs, rfl, Or.inl rfl, hx, optMapM_none_exists hm⟩
          · exact fun _ => ⟨e, ndxFold_cons_err he xs⟩

theorem ndxFold_skip_pre (pre : List String) (hpre : ∀ p ∈ pre, isHeaderLine p = false) :
    ∀ (rest : List String) (st : NSt), st.cur = none →
      ndxFold st (pre ++ rest) = ndxFold st rest := by
  induction pre with
  | nil => intro rest st _; rfl
  | cons p ps ih =>
    intro rest st hc
    rw [List.cons_append,
      ndxFold_cons_ok (ndxStep_skip (hpre p (List.mem_cons_self p ps)) hc)]
    exact ih (fun q hq => hpre q (List.mem_cons_of_mem p hq)) rest st hc

theorem ndxStep_ws (st : NSt) (l : String) (h : stripCore l.data = []) :
    ndxStep st l = .ok st := by
  rw [ndxStep_eq]
  have hd : (pyStrip l).data = [] := h
  rw [hd]
  simp only [show isHeaderCh ([] : List Char) = false from rfl, Bool.false_eq_true, if_false]
  cases hcur : st.cur with
  | none => rfl
  | some g =>
    simp only [show splitCh ([] : List Char) = [] from rfl, optMapM, odExtend_nil]
    rw [← hcur]

/-- Claim C8: `parse_ndx` raises a conversion error — returning no group
mapping — exactly when a token `int()` rejects occurs on a non-header line
after at least one header; non-header lines before the first header are
ignored whatever they contain, and all-whitespace lines contribute
nothing. -/
theorem c8_ndx_error_policy :
    (∀ lines : List String, (∃ e, parseNdx lines = .error e) ↔ HasBadNdx lines) ∧
    (∀ pre rest : List String, (∀ p ∈ pre, isHeaderLine p = false) →
      parseNdx (pre ++ rest) = parseNdx rest) ∧
    (∀ (xs ys : List String) (l : String), stripCore l.data = [] →
      parseNdx (xs ++ l :: ys) = parseNdx (xs ++ ys)) := by
  refine ⟨?_, ?_, ?_⟩
  · intro lines
    have hbridge : (∃ e, parseNdx lines = .error e) ↔
        (∃ e, ndxFold ⟨none, []⟩ lines = .error e) := by
      unfold parseNdx
      cases ndxFold ⟨none, []⟩ lines <;> simp [Except.map]
    rw [hbridge, ndxFold_error_iff]
    constructor
    · rintro ⟨pre, l, post, heq, hcond, hl, hbad⟩
      rcases hcond with hcur | hh
      · cases hcur
      · exact ⟨pre, l, post, heq, hh, hl, hbad⟩
    · rintro ⟨pre, l, post, heq, hh, hl, hbad⟩
      exact ⟨pre, l, post, heq, Or.inr hh, hl, hbad⟩
  · intro pre rest hpre
    unfold parseNdx
    rw [ndxFold_skip_pre pre hpre rest ⟨none, []⟩ rfl]
  · intro xs ys l h
    unfold parseNdx
    rw [ndxFold_append, ndxFold_append]
    cases h0 : ndxFold ⟨none, []⟩ xs with
    | error e => rfl
    | ok st2 =>
      show Except.map (fun st => (st.groups, ndxSummary st.groups)) (ndxFold st2 (l :: ys)) =
        Except.map (fun st => (st.groups, ndxSummary st.groups)) (ndxFold st2 ys)
      rw [ndxFold_cons_ok (ndxStep_ws st2 l h) ys]

theorem c8_ndx_error_policy_witness :
    (∃ e, parseNdx ["[ A ]", "1 x"] = .error e) ∧
    parseNdx (["junk preamble"] ++ ["[ A ]", "1"]) = parseNdx ["[ A ]", "1"] ∧
    parseNdx (["[ A ]"] ++ "   " :: ["1"]) = parseNdx (["[ A ]"] ++ ["1"]) :=
  ⟨(c8_ndx_error_policy.1 ["[ A ]", "1 x"]).mpr
    ⟨["[ A ]"], "1 x", [], rfl, ⟨"[ A ]", by decide, by decide⟩, by decide,
      ⟨['x'], by decide, by decide⟩⟩,
   c8_ndx_error_policy.2.1 ["junk preamble"] ["[ A ]", "1"] (by decide),
   c8_ndx_error_policy.2.2 ["[ A ]"] ["1"] "   " (by decide)⟩

/-! ### Digit characters and printed integers -/

theorem isDig_cases {c : Char} (h : isDig c = true) :
    c = '0' ∨ c = '1' ∨ c = '2' ∨ c = '3' ∨ c = '4' ∨
    c = '5' ∨ c = '6' ∨ c = '7' ∨ c = '8' ∨ c = '9' := by
  simp only [isDig, Bool.or_eq_true, decide_eq_true_eq] at h
  tauto

theorem digit_not_space {c : Char} (h : isDig c = true) : pyIsSpace c = false := by
  rcases isDig_cases h with rfl|rfl|rfl|rfl|rfl|rfl|rfl|rfl|rfl|rfl <;> rfl

theorem digit_ne_chars {c : Char} (h : isDig c = true) :
    c ≠ ';' ∧ c ≠ '_' ∧ c ≠ '.' ∧ c ≠ '-' ∧ c ≠ '+' ∧ c ≠ '=' ∧ isE c = false := by
  rcases isDig_cases h with rfl|rfl|rfl|rfl|rfl|rfl|rfl|rfl|rfl|rfl <;>
    exact ⟨by decide, by decide, by decide, by decide, by decide, by decide, by decide⟩

theorem charVal_digitChar {d : Nat} (h : d < 10) : charVal (Nat.digitChar d) = d := by
  interval_cases d <;> rfl

theorem isDig_digitChar {d : Nat} (h : d < 10) : isDig (Nat.digitChar d) = true := by
  interval_cases d <;> rfl

theorem natChars_eq {f n : Nat} (hf : n < f) (hn : 1 ≤ n) :
    natChars f n = (Nat.digits 10 n).reverse.map Nat.digitChar := by
  induction f generalizing n with
  | zero => omega
  | succ f ih =>
    show (if n < 10 then [Nat.digitChar n]
      else natChars f (n / 10) ++ [Nat.digitChar (n % 10)]) = _
    by_cases h10 : n < 10
    · rw [if_pos h10, Nat.digits_def' (by norm_num : (1:Nat) < 10) hn,
        Nat.div_eq_of_lt h10]
      simp [Nat.mod_eq_of_lt h10]
    · rw [if_neg h10]
      have hn10 : 1 ≤ n / 10 := (Nat.one_le_div_iff (by norm_num)).mpr (by omega)
      have hlt : n / 10 < f := by
        have := Nat.div_lt_self (by omega : 0 < n) (by norm_num : 1 < 10)
        omega
      rw [ih hlt hn10, Nat.digits_def' (by norm_num : (1:Nat) < 10) hn]
      simp

theorem digitsVal_go (cs : List Char) :
    ∀ a : Nat, cs.foldl (fun x c => 10 * x + charVal c) a = a * 10 ^ cs.length + digitsVal cs := by
  induction cs with
  | nil => intro a; simp [digitsVal]
  | cons c cs ih =>
    intro a
    show cs.foldl _ (10 * a + charVal c) = _
    rw [ih (10 * a + charVal c)]
    have h2 : digitsVal (c :: cs) = charVal c * 10 ^ cs.length + digitsVal cs := by
      show cs.foldl _ (10 * 0 + charVal c) = _
      rw [ih (10 * 0 + charVal c)]
      ring_nf
    rw [h2]
    simp only [List.length_cons]
    ring

theorem digitsVal_append (A B : List Char) :
    digitsVal (A ++ B) = digitsVal A * 10 ^ B.length + digitsVal B := by
  show (A ++ B).foldl _ 0 = _
  rw [List.foldl_append]
  exact digitsVal_go B (digitsVal A)

theorem digitsVal_single (c : Char) : digitsVal [c] = charVal c := by
  show 10 * 0 + charVal c = charVal c
  omega

theorem digitsVal_replicate_zero (k : Nat) : digitsVal (List.replicate k '0') = 0 := by
  induction k with
  | zero => rfl
  | succ k ih =>
    rw [List.replicate_succ, show ('0' :: List.replicate k '0') = ['0'] ++ List.replicate k '0'
      from rfl, digitsVal_append, ih]
    rw [digitsVal_single]
    simp [show charVal '0' = 0 from rfl]

theorem digitsVal_ofDigits (L : List Nat) (hd : ∀ d ∈ L, d < 10) :
    digitsVal (L.reverse.map Nat.digitChar) = Nat.ofDigits 10 L := by
  induction L with
  | nil => rfl
  | cons d L ih =>
    rw [List.reverse_cons, List.map_append, digitsVal_append]
    have hd10 : d < 10 := hd d (List.mem_cons_self d L)
    simp only [List.map_cons, List.map_nil, List.length_cons, List.length_nil]
    rw [digitsVal_single, charVal_digitChar hd10,
      ih (fun x hx => hd x (List.mem_cons_of_mem d hx)), Nat.ofDigits_cons]
    push_cast
    ring

theorem natDecChars_val (n : Nat) : digitsVal (natDecChars n) = n := by
  rcases Nat.eq_zero_or_pos n with rfl | hn
  · rfl
  · unfold natDecChars
    rw [natChars_eq (Nat.lt_succ_self n) hn,
      digitsVal_ofDigits _ (fun d hd => Nat.digits_lt_base (by norm_num) hd)]
    exact Nat.ofDigits_digits 10 n

theorem natDecChars_digits (n : Nat) : ∀ c ∈ natDecChars n, isDig c = true := by
  rcases Nat.eq_zero_or_pos n with rfl | hn
  · intro c hc
    simp only [natDecChars, natChars] at hc
    simp at hc
    rw [hc]
    rfl
  · intro c hc
    rw [natDecChars, natChars_eq (Nat.lt_succ_self n) hn] at hc
    simp only [List.mem_map, List.mem_reverse] at hc
    obtain ⟨d, hd, rfl⟩ := hc
    exact isDig_digitChar (Nat.digits_lt_base (by norm_num) hd)

theorem natDecChars_ne_nil (n : Nat) : natDecChars n ≠ [] := by
  rcases Nat.eq_zero_or_pos n with rfl | hn
  · simp [natDecChars, natChars]
  · rw [natDecChars, natChars_eq (Nat.lt_succ_self n) hn]
    simp [Nat.digits_ne_nil_iff_ne_zero, Nat.pos_iff_ne_zero.mp hn]

theorem undTail_digits {ds : List Char} (h : ∀ c ∈ ds, isDig c = true) :
    undTail ds = some ds := by
  induction ds with
  | nil => rfl
  | cons c cs ih =>
    have hc : isDig c = true := h c (List.mem_cons_self c cs)
    have hcne : c ≠ '_' := (digit_ne_chars hc).2.1
    unfold undTail
    rw [if_neg hcne, if_pos hc, ih (fun x hx => h x (List.mem_cons_of_mem c hx))]
    rfl

theorem deUnd_digits {ds : List Char} (hne : ds ≠ []) (h : ∀ c ∈ ds, isDig c = true) :
    deUnd ds = some ds := by
  cases ds with
  | nil => exact absurd rfl hne
  | cons c cs =>
    have hc : isDig c = true := h c (List.mem_cons_self c cs)
    show (if isDig c = true then (undTail cs).map (c :: ·) else none) = some (c :: cs)
    rw [if_pos hc, undTail_digits (fun x hx => h x (List.mem_cons_of_mem c hx))]
    rfl

theorem undTail_mem : ∀ (ds r : List Char), undTail ds = some r →
    ∀ c ∈ ds, isDig c = true ∨ c = '_'
  | [], _, _ => by intro c hc; cases hc
  | c0 :: rest, r, h => by
    intro c hc
    unfold undTail at h
    by_cases h0 : c0 = '_'
    · rw [if_pos h0] at h
      cases rest with
      | nil => cases h
      | cons c2 rest2 =>
        change (if isDig c2 = true then (undTail rest2).map (c2 :: ·) else none) = some r at h
        by_cases h2 : isDig c2
        · rw [if_pos h2] at h
          cases hm : undTail rest2 with
          | none => rw [hm] at h; cases h
          | some r2 =>
            rcases List.mem_cons.mp hc with rfl | hc2
            · exact Or.inr h0
            · rcases List.mem_cons.mp hc2 with rfl | hc3
              · exact Or.inl h2
              · exact undTail_mem rest2 r2 hm c hc3
        · rw [if_neg h2] at h; cases h
    · rw [if_neg h0] at h
      by_cases hd : isDig c0
      · rw [if_pos hd] at h
        cases hm : undTail rest with
        | none => rw [hm] at h; cases h
        | some r2 =>
          rcases List.mem_cons.mp hc with rfl | hc2
          · exact Or.inl hd
          · exact undTail_mem rest r2 hm c hc2
      · rw [if_neg hd] at h; cases h

theorem deUnd_mem {ds r : List Char} (h : deUnd ds = some r) :
    ∀ c ∈ ds, isDig c = true ∨ c = '_' := by
  cases ds with
  | nil => intro c hc; cases hc
  | cons c0 rest =>
    intro c hc
    unfold deUnd at h
    change (if isDig c0 = true then (undTail rest).map (c0 :: ·) else none) = some r at h
    by_cases hd : isDig c0
    · rw [if_pos hd] at h
      cases hm : undTail rest with
      | none => rw [hm] at h; cases h
      | some r2 =>
        rcases List.mem_cons.mp hc with rfl | hc2
        · exact Or.inl hd
        · exact undTail_mem rest r2 hm c hc2
    · rw [if_neg hd] at h; cases h

theorem stripCore_eq_self_of_all {cs : List Char} (h : ∀ c ∈ cs, pyIsSpace c = false) :
    stripCore cs = cs :=
  stripCore_eq_self (fun c hc => h c (List.mem_of_mem_head? hc))
    (fun c hc => h c (List.mem_of_mem_getLast? hc))

theorem splitSign_no_sign {ds : List Char} (h : ∀ c ∈ ds, c ≠ '+' ∧ c ≠ '-') :
    splitSign ds = (false, ds) := by
  cases ds with
  | nil => rfl
  | cons c cs =>
    have := h c (List.mem_cons_self c cs)
    show (if c = '+' then _ else if c = '-' then _ else (false, c :: cs)) = _
    rw [if_neg this.1, if_neg this.2]

theorem digit_list_facts {ds : List Char} (h : ∀ c ∈ ds, isDig c = true) :
    (∀ c ∈ ds, pyIsSpace c = false) ∧ (∀ c ∈ ds, c ≠ '+' ∧ c ≠ '-') :=
  ⟨fun c hc => digit_not_space (h c hc),
   fun c hc => ⟨(digit_ne_chars (h c hc)).2.2.2.2.1, (digit_ne_chars (h c hc)).2.2.2.1⟩⟩

/-- `int(str(n)) == n`: parsing a printed integer recovers it. -/
theorem pyInt_roundtrip (n : Int) : pyIntChars (intStr n).data = some n := by
  cases n with
  | ofNat m =>
    show pyIntChars (natDecChars m) = some (m : Int)
    have hdig := natDecChars_digits m
    have hfacts := digit_list_facts hdig
    unfold pyIntChars
    rw [stripCore_eq_self_of_all hfacts.1]
    show (match splitSign (natDecChars m) with
      | (neg, ds) => (deUnd ds).map (fun d => applySign neg (digitsVal d))) = some (m : Int)
    rw [splitSign_no_sign hfacts.2]
    show (deUnd (natDecChars m)).map (fun d => applySign false (digitsVal d)) = some (m : Int)
    rw [deUnd_digits (natDecChars_ne_nil m) hdig]
    simp [applySign, natDecChars_val]
  | negSucc m =>
    show pyIntChars ('-' :: natDecChars (m + 1)) = some (Int.negSucc m)
    have hdig := natDecChars_digits (m + 1)
    have hfacts := digit_list_facts hdig
    unfold pyIntChars
    have hall : ∀ c ∈ ('-' :: natDecChars (m + 1)), pyIsSpace c = false := by
      intro c hc
      rcases List.mem_cons.mp hc with rfl | hc2
      · rfl
      · exact hfacts.1 c hc2
    rw [stripCore_eq_self_of_all hall]
    show ((deUnd (splitSign ('-' :: natDecChars (m + 1))).2).map
      (fun d => applySign (splitSign ('-' :: natDecChars (m + 1))).1 (digitsVal d))) = _
    rw [show splitSign ('-' :: natDecChars (m + 1)) = (true, natDecChars (m + 1)) from rfl]
    rw [deUnd_digits (natDecChars_ne_nil (m + 1)) hdig]
    simp [applySign, natDecChars_val]
    rw [Int.negSucc_eq]
    ring

/-! ### Printed floats parse back to themselves -/

theorem splitFirst_none {p : Char → Bool} {cs : List Char} (h : ∀ c ∈ cs, p c = false) :
    splitFirst p cs = none := by
  induction cs with
  | nil => rfl
  | cons c cs ih =>
    show (if p c then _ else (splitFirst p cs).map _) = none
    rw [h c (List.mem_cons_self c cs)]
    rw [ih (fun x hx => h x (List.mem_cons_of_mem c hx))]
    rfl

theorem splitFirst_append_cons {p : Char → Bool} {A : List Char} {x : Char} {B : List Char}
    (hA : ∀ c ∈ A, p c = false) (hx : p x = true) :
    splitFirst p (A ++ x :: B) = some (A, B) := by
  induction A with
  | nil =>
    show (if p x then some ([], B) else _) = _
    rw [hx]
    rfl
  | cons a A ih =>
    show (if p a then _ else (splitFirst p (A ++ x :: B)).map _) = _
    rw [hA a (List.mem_cons_self a A), ih (fun c hc => hA c (List.mem_cons_of_mem a hc))]
    rfl

theorem deUndOpt_digits {ds : List Char} (h : ∀ c ∈ ds, isDig c = true) :
    deUndOpt ds = some ds := by
  cases ds with
  | nil => rfl
  | cons c cs => exact deUnd_digits (by simp) h

theorem deUnd_ne_nil {ds d : List Char} (h : deUnd ds = some d) : d ≠ [] := by
  cases ds with
  | nil => cases h
  | cons c cs =>
    unfold deUnd at h
    change (if isDig c = true then (undTail cs).map (c :: ·) else none) = some d at h
    by_cases hc : isDig c
    · rw [if_pos hc] at h
      cases hm : undTail cs with
      | none => rw [hm] at h; cases h
      | some r =>
        rw [hm] at h
        simp at h
        rw [← h]
        simp
    · rw [if_neg hc] at h; cases h

theorem decChars_charset (a : Nat) (e : Int) :
    ∀ c ∈ decChars a e, isDig c = true ∨ c = '.' := by
  intro c hc
  unfold decChars at hc
  by_cases ha : a = 0
  · rw [if_pos ha] at hc
    simp only [List.mem_cons, List.not_mem_nil, or_false] at hc
    rcases hc with rfl | rfl | rfl
    · exact Or.inl rfl
    · exact Or.inr rfl
    · exact Or.inl rfl
  · rw [if_neg ha] at hc
    by_cases he : 0 ≤ e
    · rw [if_pos he] at hc
      rcases List.mem_append.mp hc with h1 | h2
      · rcases List.mem_append.mp h1 with h3 | h4
        · exact Or.inl (natDecChars_digits a c h3)
        · rw [List.eq_of_mem_replicate h4]; exact Or.inl rfl
      · simp only [List.mem_cons, List.not_mem_nil, or_false] at h2
        rcases h2 with rfl | rfl
        · exact Or.inr rfl
        · exact Or.inl rfl
    · rw [if_neg he] at hc
      by_cases hk : (-e).toNat < (natDecChars a).length
      · rw [if_pos hk] at hc
        rcases List.mem_append.mp hc with h1 | h2
        · exact Or.inl (natDecChars_digits a c (List.take_subset _ _ h1))
        · simp only [List.mem_cons] at h2
          rcases h2 with rfl | h3
          · exact Or.inr rfl
          · exact Or.inl (natDecChars_digits a c (List.drop_subset _ _ h3))
      · rw [if_neg hk] at hc
        simp only [List.mem_cons] at hc
        rcases hc with rfl | hc2
        · exact Or.inl rfl
        · rcases hc2 with rfl | h3
          · exact Or.inr rfl
          · rcases List.mem_append.mp h3 with h4 | h5
            · rw [List.eq_of_mem_replicate h4]; exact Or.inl rfl
            · exact Or.inl (natDecChars_digits a c h5)

theorem decChars_not_space (a : Nat) (e : Int) : ∀ c ∈ decChars a e, pyIsSpace c = false := by
  intro c hc
  rcases decChars_charset a e c hc with h | rfl
  · exact digit_not_space h
  · rfl

theorem decChars_no_sign (a : Nat) (e : Int) : ∀ c ∈ decChars a e, c ≠ '+' ∧ c ≠ '-' := by
  intro c hc
  rcases decChars_charset a e c hc with h | rfl
  · exact ⟨(digit_ne_chars h).2.2.2.2.1, (digit_ne_chars h).2.2.2.1⟩
  · exact ⟨by decide, by decide⟩

theorem dot_mem_decChars (a : Nat) (e : Int) : '.' ∈ decChars a e := by
  unfold decChars
  by_cases ha : a = 0
  · rw [if_pos ha]; simp
  · rw [if_neg ha]
    by_cases he : 0 ≤ e
    · rw [if_pos he]; simp
    · rw [if_neg he]
      by_cases hk : (-e).toNat < (natDecChars a).length
      · rw [if_pos hk]; simp
      · rw [if_neg hk]; simp

/-- `int()` rejects every printed float (it always contains a decimal
point or a letter). -/
theorem pyInt_of_decStr_none (f : PyFloat) : pyIntChars (pyDecStr f).data = none := by
  cases f with
  | pinf => decide
  | ninf => decide
  | nan => decide
  | fin m e =>
    by_cases hm : m < 0
    · have hd : (pyDecStr (.fin m e)).data = '-' :: decChars m.natAbs e := by
        simp [pyDecStr, hm, String.data_append]
      rw [hd]
      unfold pyIntChars
      have hall : ∀ c ∈ ('-' :: decChars m.natAbs e), pyIsSpace c = false := by
        intro c hc
        rcases List.mem_cons.mp hc with rfl | hc2
        · rfl
        · exact decChars_not_space _ _ c hc2
      rw [stripCore_eq_self_of_all hall]
      show (match splitSign ('-' :: decChars m.natAbs e) with
        | (neg, ds) => (deUnd ds).map (fun d => applySign neg (digitsVal d))) = none
      rw [show splitSign ('-' :: decChars m.natAbs e) = (true, decChars m.natAbs e) from rfl]
      show (deUnd (decChars m.natAbs e)).map _ = none
      cases hdu : deUnd (decChars m.natAbs e) with
      | none => rfl
      | some r =>
        rcases deUnd_mem hdu '.' (dot_mem_decChars _ _) with h | h
        · cases h
        · cases h
    · have hd : (pyDecStr (.fin m e)).data = decChars m.natAbs e := by
        simp [pyDecStr, hm]
      rw [hd]
      unfold pyIntChars
      rw [stripCore_eq_self_of_all (decChars_not_space _ _)]
      show (match splitSign (decChars m.natAbs e) with
        | (neg, ds) => (deUnd ds).map (fun d => applySign neg (digitsVal d))) = none
      rw [splitSign_no_sign (decChars_no_sign _ _)]
      show (deUnd (decChars m.natAbs e)).map _ = none
      cases hdu : deUnd (decChars m.natAbs e) with
      | none => rfl
      | some r =>
        rcases deUnd_mem hdu '.' (dot_mem_decChars _ _) with h | h
        · cases h
        · cases h

/-- Every string `int()` accepts, `float()` accepts too. -/
theorem pyFloat_of_pyInt {cs : List Char} {n : Int} (h : pyIntChars cs = some n) :
    ∃ fv, pyFloatChars cs = some fv := by
  replace h : (match splitSign (stripCore cs) with
    | (neg2, ds2) => (deUnd ds2).map (fun d => applySign neg2 (digitsVal d))) = some n := h
  rcases hsp : splitSign (stripCore cs) with ⟨neg, ds⟩
  rw [hsp] at h
  replace h : (deUnd ds).map (fun d => applySign neg (digitsVal d)) = some n := h
  cases hdu : deUnd ds with
  | none => rw [hdu] at h; cases h
  | some d =>
    have hds : ∀ c ∈ ds, isDig c = true ∨ c = '_' := deUnd_mem hdu
    have hdsne : ds ≠ [] := by
      intro hnil
      rw [hnil] at hdu
      cases hdu
    have hnoE : ∀ c ∈ ds, isE c = false := by
      intro c hc
      rcases hds c hc with hdig | rfl
      · exact (digit_ne_chars hdig).2.2.2.2.2.2
      · rfl
    have hnoDot : ∀ c ∈ ds, (decide (c = '.')) = false := by
      intro c hc
      rcases hds c hc with hdig | rfl
      · simp [(digit_ne_chars hdig).2.2.1]
      · rfl
    have hopt : deUndOpt ds = some d := by
      cases ds with
      | nil => exact absurd rfl hdsne
      | cons c t => exact hdu
    have hfb : floatBody ds = some (digitsVal d, 0 - 0) := by
      unfold floatBody parseExp parseMant
      simp only [splitFirst_none hnoE, splitFirst_none hnoDot, hopt, Option.map_some']
      rw [if_neg (by simpa using deUnd_ne_nil hdu)]
      simp
    have hgoal : pyFloatChars cs = (match splitSign (stripCore cs) with
      | (neg2, ds2) =>
        match floatBody ds2 with
        | some (m, e) => some (mkFin (applySign neg2 m) e)
        | none =>
          let w := lowerAll ds2
          if w = "inf".data || w = "infinity".data then
            some (if neg2 then .ninf else .pinf)
          else if w = "nan".data then some .nan
          else none) := rfl
    refine ⟨mkFin (applySign neg (digitsVal d)) (0 - 0), ?_⟩
    rw [hgoal, hsp]
    simp [hfb]

theorem natAbs_div10_lt {m : Int} (h1 : m ≠ 0) (h2 : m % 10 = 0) :
    (m / 10).natAbs < m.natAbs := by
  have h10 : (10:Int) ∣ m := Int.dvd_of_emod_eq_zero h2
  have hc : m / 10 * 10 = m := Int.ediv_mul_cancel h10
  omega

theorem normDecF_congr : ∀ (f g : Nat) (m e : Int), m.natAbs < f → m.natAbs < g →
    normDecF f m e = normDecF g m e := by
  intro f
  induction f with
  | zero => intro g m e hf _; omega
  | succ f ih =>
    intro g m e hf hg
    cases g with
    | zero => omega
    | succ g =>
      show (if m = 0 then ((0:Int), (0:Int))
          else if m % 10 = 0 then normDecF f (m / 10) (e + 1) else (m, e)) =
        (if m = 0 then ((0:Int), (0:Int))
          else if m % 10 = 0 then normDecF g (m / 10) (e + 1) else (m, e))
      by_cases h0 : m = 0
      · rw [if_pos h0, if_pos h0]
      · rw [if_neg h0, if_neg h0]
        by_cases h1 : m % 10 = 0
        · rw [if_pos h1, if_pos h1]
          have := natAbs_div10_lt h0 h1
          exact ih g (m / 10) (e + 1) (by omega) (by omega)
        · rw [if_neg h1, if_neg h1]

theorem normDec_self {m e : Int} (hm : m ≠ 0) (hd : ¬ (10:Int) ∣ m) : normDec m e = (m, e) := by
  show (if m = 0 then ((0:Int), (0:Int))
    else if m % 10 = 0 then normDecF m.natAbs (m / 10) (e + 1) else (m, e)) = (m, e)
  rw [if_neg hm, if_neg (fun h1 => hd (Int.dvd_of_emod_eq_zero h1))]

theorem normDec_mul_pow : ∀ (k : Nat) (b x : Int), b ≠ 0 →
    normDec (b * 10 ^ k) x = normDec b (x + k) := by
  intro k
  induction k with
  | zero => intro b x _; simp
  | succ k ih =>
    intro b x hb
    have hm0 : b * 10 ^ (k + 1) ≠ 0 := mul_ne_zero hb (pow_ne_zero _ (by norm_num))
    have hdvd : (10:Int) ∣ b * 10 ^ (k + 1) := ⟨b * 10 ^ k, by ring⟩
    have hmod : (b * 10 ^ (k + 1)) % 10 = 0 := Int.emod_eq_zero_of_dvd hdvd
    have hdiv : (b * 10 ^ (k + 1)) / 10 = b * 10 ^ k := by
      rw [pow_succ, ← mul_assoc]
      exact Int.mul_ediv_cancel _ (by norm_num)
    show normDecF ((b * 10 ^ (k + 1)).natAbs + 1) (b * 10 ^ (k + 1)) x = _
    show (if b * 10 ^ (k + 1) = 0 then ((0:Int), (0:Int))
      else if (b * 10 ^ (k + 1)) % 10 = 0 then
        normDecF (b * 10 ^ (k + 1)).natAbs ((b * 10 ^ (k + 1)) / 10) (x + 1)
      else (b * 10 ^ (k + 1), x)) = _
    rw [if_neg hm0, if_pos hmod, hdiv]
    have h1 : (b * 10 ^ k).natAbs < (b * 10 ^ (k + 1)).natAbs := by
      have := natAbs_div10_lt hm0 hmod
      rw [hdiv] at this
      exact this
    have h2 : normDecF (b * 10 ^ (k + 1)).natAbs (b * 10 ^ k) (x + 1) =
        normDecF ((b * 10 ^ k).natAbs + 1) (b * 10 ^ k) (x + 1) :=
      normDecF_congr _ _ _ _ (by omega) (by omega)
    rw [h2]
    show normDec (b * 10 ^ k) (x + 1) = normDec b (x + (k + 1 : Nat))
    rw [ih b (x + 1) hb]
    congr 1
    push_cast
    ring

theorem normDecF_isNorm : ∀ (fuel : Nat) (m e : Int), m.natAbs < fuel →
    ((normDecF fuel m e).1 = 0 → (normDecF fuel m e).2 = 0) ∧
    ((normDecF fuel m e).1 ≠ 0 → ¬ (10:Int) ∣ (normDecF fuel m e).1) := by
  intro fuel
  induction fuel with
  | zero => intro m e h; omega
  | succ fuel ih =>
    intro m e h
    have hunf : normDecF (fuel + 1) m e =
        (if m = 0 then ((0:Int), (0:Int))
          else if m % 10 = 0 then normDecF fuel (m / 10) (e + 1) else (m, e)) := rfl
    rw [hunf]
    by_cases h0 : m = 0
    · rw [if_pos h0]
      exact ⟨fun _ => rfl, fun hne => absurd rfl hne⟩
    · rw [if_neg h0]
      by_cases h1 : m % 10 = 0
      · rw [if_pos h1]
        have := natAbs_div10_lt h0 h1
        exact ih (m / 10) (e + 1) (by omega)
      · rw [if_neg h1]
        exact ⟨fun hz => absurd hz h0,
          fun _ hdvd => h1 (Int.emod_eq_zero_of_dvd hdvd)⟩

theorem normDec_isNorm (m e : Int) :
    ((normDec m e).1 = 0 → (normDec m e).2 = 0) ∧
    ((normDec m e).1 ≠ 0 → ¬ (10:Int) ∣ (normDec m e).1) :=
  normDecF_isNorm (m.natAbs + 1) m e (by omega)

theorem mkFin_FloatOk (m e : Int) : FloatOk (mkFin m e) := by
  have h := normDec_isNorm m e
  show (((normDec m e).1 = 0 → (normDec m e).2 = 0) ∧ _)
  exact h

theorem dot_decide : (decide (('.' : Char) = '.')) = true := by decide

theorem no_dot_of_digits {A : List Char} (h : ∀ c ∈ A, isDig c = true) :
    ∀ c ∈ A, (decide (c = '.')) = false := by
  intro c hc
  simp [(digit_ne_chars (h c hc)).2.2.1]

theorem noE_of_charset {A : List Char} (h : ∀ c ∈ A, isDig c = true ∨ c = '.') :
    ∀ c ∈ A, isE c = false := by
  intro c hc
  rcases h c hc with hd | rfl
  · exact (digit_ne_chars hd).2.2.2.2.2.2
  · rfl

/-- The printed magnitude `decChars a e` parses as mantissa value
`a * 10 ^ j` with effective exponent `e - j` for some shift `j`. -/
theorem floatBody_decChars (a : Nat) (e : Int) (ha : a ≠ 0) :
    ∃ j : Nat, floatBody (decChars a e) = some (a * 10 ^ j, e - j) := by
  have hD := natDecChars_digits a
  have hDne := natDecChars_ne_nil a
  have hnoE := noE_of_charset (decChars_charset a e)
  by_cases he : 0 ≤ e
  · -- decChars = (D ++ Z) ++ '.' :: ['0']
    have hshape : decChars a e =
        (natDecChars a ++ List.replicate e.toNat '0') ++ '.' :: ['0'] := by
      unfold decChars
      rw [if_neg ha, if_pos he]
    have hDZ : ∀ c ∈ natDecChars a ++ List.replicate e.toNat '0', isDig c = true := by
      intro c hc
      rcases List.mem_append.mp hc with h1 | h2
      · exact hD c h1
      · rw [List.eq_of_mem_replicate h2]; rfl
    refine ⟨e.toNat + 1, ?_⟩
    rw [hshape] at hnoE ⊢
    unfold floatBody parseExp parseMant
    simp only [splitFirst_none hnoE,
      splitFirst_append_cons (no_dot_of_digits hDZ) dot_decide,
      deUndOpt_digits hDZ, deUndOpt_digits (fun c hc => by
        simp only [List.mem_singleton] at hc
        rw [hc]
        rfl : ∀ c ∈ ['0'], isDig c = true)]
    rw [if_neg (by simp [hDne])]
    have hv : digitsVal ((natDecChars a ++ List.replicate e.toNat '0') ++ ['0']) =
        a * 10 ^ (e.toNat + 1) := by
      rw [digitsVal_append, digitsVal_append, digitsVal_replicate_zero, natDecChars_val,
        digitsVal_single]
      simp [show charVal '0' = 0 from rfl, List.length_replicate]
      ring
    rw [hv]
    have hexp : (0 : Int) - (['0'] : List Char).length = e - (e.toNat + 1 : Nat) := by
      simp only [List.length_singleton]
      omega
    rw [hexp]
  · push_neg at he
    set k := (-e).toNat with hk
    have hke : (k : Int) = -e := Int.toNat_of_nonneg (by omega)
    by_cases hlen : k < (natDecChars a).length
    · have hshape : decChars a e =
          (natDecChars a).take ((natDecChars a).length - k) ++
            '.' :: (natDecChars a).drop ((natDecChars a).length - k) := by
        unfold decChars
        rw [if_neg ha, if_neg (by omega : ¬ 0 ≤ e), if_pos hlen]
      have htake : ∀ c ∈ (natDecChars a).take ((natDecChars a).length - k), isDig c = true :=
        fun c hc => hD c (List.take_subset _ _ hc)
      have hdrop : ∀ c ∈ (natDecChars a).drop ((natDecChars a).length - k), isDig c = true :=
        fun c hc => hD c (List.drop_subset _ _ hc)
      refine ⟨0, ?_⟩
      rw [hshape] at hnoE ⊢
      unfold floatBody parseExp parseMant
      simp only [splitFirst_none hnoE,
        splitFirst_append_cons (no_dot_of_digits htake) dot_decide,
        deUndOpt_digits htake, deUndOpt_digits hdrop]
      rw [if_neg (by simp [List.take_append_drop, hDne])]
      rw [show (natDecChars a).take ((natDecChars a).length - k) ++
          (natDecChars a).drop ((natDecChars a).length - k) = natDecChars a
        from List.take_append_drop _ _]
      rw [natDecChars_val]
      have hlendrop : ((natDecChars a).drop ((natDecChars a).length - k)).length = k := by
        rw [List.length_drop]
        omega
      rw [hlendrop]
      simp
      omega
    · have hshape : decChars a e =
          ['0'] ++ '.' :: (List.replicate (k - (natDecChars a).length) '0' ++ natDecChars a) := by
        unfold decChars
        rw [if_neg ha, if_neg (by omega : ¬ 0 ≤ e), if_neg hlen]
        rfl
      have hZD : ∀ c ∈ List.replicate (k - (natDecChars a).length) '0' ++ natDecChars a,
          isDig c = true := by
        intro c hc
        rcases List.mem_append.mp hc with h1 | h2
        · rw [List.eq_of_mem_replicate h1]; rfl
        · exact hD c h2
      have h0dig : ∀ c ∈ ['0'], isDig c = true := by
        intro c hc
        simp only [List.mem_singleton] at hc
        rw [hc]
        rfl
      refine ⟨0, ?_⟩
      rw [hshape] at hnoE ⊢
      unfold floatBody parseExp parseMant
      simp only [splitFirst_none hnoE,
        splitFirst_append_cons (no_dot_of_digits h0dig) dot_decide,
        deUndOpt_digits h0dig, deUndOpt_digits hZD]
      rw [if_neg (by simp)]
      have hv : digitsVal (['0'] ++ (List.replicate (k - (natDecChars a).length) '0'
          ++ natDecChars a)) = a := by
        rw [digitsVal_append, digitsVal_append, digitsVal_replicate_zero, natDecChars_val,
          digitsVal_single]
        simp [show charVal '0' = 0 from rfl]
      rw [hv]
      have hlenf : ((List.replicate (k - (natDecChars a).length) '0'
          ++ natDecChars a)).length = k := by
        rw [List.length_append, List.length_replicate]
        have : (natDecChars a).length ≤ k := by omega
        omega
      rw [hlenf]
      simp
      omega

/-- `float(str(x)) == x` for well-formed float values: parsing a printed
float recovers it. -/
theorem pyFloat_roundtrip (f : PyFloat) (hf : FloatOk f) :
    pyFloatChars (pyDecStr f).data = some f := by
  cases f with
  | pinf => decide
  | ninf => decide
  | nan => decide
  | fin m e =>
    have hf2 : (m = 0 → e = 0) ∧ (m ≠ 0 → ¬ (10:Int) ∣ m) := hf
    by_cases hm0 : m = 0
    · subst hm0
      rw [hf2.1 rfl]
      decide
    · have ha : m.natAbs ≠ 0 := by omega
      obtain ⟨j, hfb⟩ := floatBody_decChars m.natAbs e ha
      have hnormc : normDec (m * 10 ^ j) (e - j) = (m, e) := by
        rw [normDec_mul_pow j m (e - j) hm0]
        rw [show e - (j : Int) + (j : Int) = e by ring]
        exact normDec_self hm0 (hf2.2 hm0)
      have hmk : mkFin (m * 10 ^ j) (e - j) = .fin m e := by
        unfold mkFin
        rw [hnormc]
      by_cases hm : m < 0
      · have hd : (pyDecStr (.fin m e)).data = '-' :: decChars m.natAbs e := by
          simp [pyDecStr, hm, String.data_append]
        rw [hd]
        have hall : ∀ c ∈ ('-' :: decChars m.natAbs e), pyIsSpace c = false := by
          intro c hc
          rcases List.mem_cons.mp hc with rfl | hc2
          · rfl
          · exact decChars_not_space _ _ c hc2
        have hgoal : pyFloatChars ('-' :: decChars m.natAbs e) =
            (match splitSign (stripCore ('-' :: decChars m.natAbs e)) with
            | (neg2, ds2) =>
              match floatBody ds2 with
              | some (mv, ev) => some (mkFin (applySign neg2 mv) ev)
              | none =>
                let w := lowerAll ds2
                if w = "inf".data || w = "infinity".data then
                  some (if neg2 then .ninf else .pinf)
                else if w = "nan".data then some .nan
                else none) := rfl
        rw [hgoal, stripCore_eq_self_of_all hall]
        rw [show splitSign ('-' :: decChars m.natAbs e) = (true, decChars m.natAbs e) from rfl]
        simp only [hfb]
        show some (mkFin (applySign true (m.natAbs * 10 ^ j)) (e - j)) = some (.fin m e)
        have hsign : applySign true ((m.natAbs * 10 ^ j : Nat)) = m * 10 ^ j := by
          unfold applySign
          simp only [if_true]
          push_cast
          rw [abs_of_neg hm]
          ring
        rw [hsign, hmk]
      · have hd : (pyDecStr (.fin m e)).data = decChars m.natAbs e := by
          show ((if m < 0 then "-" else "") ++ String.mk (decChars m.natAbs e)).data = _
          rw [if_neg hm]
          simp [String.data_append]
        rw [hd]
        have hgoal : pyFloatChars (decChars m.natAbs e) =
            (match splitSign (stripCore (decChars m.natAbs e)) with
            | (neg2, ds2) =>
              match floatBody ds2 with
              | some (mv, ev) => some (mkFin (applySign neg2 mv) ev)
              | none =>
                let w := lowerAll ds2
                if w = "inf".data || w = "infinity".data then
                  some (if neg2 then .ninf else .pinf)
                else if w = "nan".data then some .nan
                else none) := rfl
        rw [hgoal, stripCore_eq_self_of_all (decChars_not_space _ _)]
        rw [splitSign_no_sign (decChars_no_sign _ _)]
        simp only [hfb]
        show some (mkFin (applySign false (m.natAbs * 10 ^ j)) (e - j)) = some (.fin m e)
        have hsign : applySign false ((m.natAbs * 10 ^ j : Nat)) = m * 10 ^ j := by
          show ((m.natAbs * 10 ^ j : Nat) : Int) = m * 10 ^ j
          push_cast
          rw [abs_of_nonneg (not_lt.mp hm)]
        rw [hsign, hmk]

/-! ### Splitting and joining tokens -/

theorem splitChF_congr : ∀ (f g : Nat) (cs : List Char), cs.length ≤ f → cs.length ≤ g →
    splitChF f cs = splitChF g cs := by
  intro f
  induction f with
  | zero =>
    intro g cs hf _
    have hnil : cs = [] := List.length_eq_zero.mp (by omega)
    subst hnil
    cases g with
    | zero => rfl
    | succ g => rfl
  | succ f ih =>
    intro g cs hf hg
    cases g with
    | zero =>
      have hnil : cs = [] := List.length_eq_zero.mp (by omega)
      subst hnil
      rfl
    | succ g =>
      show (match cs.dropWhile pyIsSpace with
        | [] => []
        | c :: rest => (c :: rest.takeWhile notSpace) :: splitChF f (rest.dropWhile notSpace)) =
        (match cs.dropWhile pyIsSpace with
        | [] => []
        | c :: rest => (c :: rest.takeWhile notSpace) :: splitChF g (rest.dropWhile notSpace))
      cases hdw : cs.dropWhile pyIsSpace with
      | nil => rfl
      | cons c rest =>
        show (c :: rest.takeWhile notSpace) :: splitChF f (rest.dropWhile notSpace) =
          (c :: rest.takeWhile notSpace) :: splitChF g (rest.dropWhile notSpace)
        have hlen : (c :: rest).length ≤ cs.length := by
          rw [← hdw]
          exact (List.dropWhile_suffix pyIsSpace).length_le
        have hrest : (rest.dropWhile notSpace).length ≤ rest.length :=
          (List.dropWhile_suffix notSpace).length_le
        have hresf : (rest.dropWhile notSpace).length ≤ f := by
          simp only [List.length_cons] at hlen
          omega
        have hresg : (rest.dropWhile notSpace).length ≤ g := by
          simp only [List.length_cons] at hlen
          omega
        rw [ih g (rest.dropWhile notSpace) hresf hresg]

theorem splitCh_step (cs : List Char) :
    splitCh cs = match cs.dropWhile pyIsSpace with
      | [] => []
      | c :: rest => (c :: rest.takeWhile notSpace) :: splitCh (rest.dropWhile notSpace) := by
  show splitChF cs.length cs = _
  cases hl : cs.length with
  | zero =>
    have hnil : cs = [] := List.length_eq_zero.mp hl
    subst hnil
    rfl
  | succ L =>
    show (match cs.dropWhile pyIsSpace with
      | [] => []
      | c :: rest => (c :: rest.takeWhile notSpace) :: splitChF L (rest.dropWhile notSpace)) = _
    cases hdw : cs.dropWhile pyIsSpace with
    | nil => rfl
    | cons c rest =>
      show (c :: rest.takeWhile notSpace) :: splitChF L (rest.dropWhile notSpace) =
        (c :: rest.takeWhile notSpace) :: splitCh (rest.dropWhile notSpace)
      have hlen : (c :: rest).length ≤ cs.length := by
        rw [← hdw]
        exact (List.dropWhile_suffix pyIsSpace).length_le
      have hrest : (rest.dropWhile notSpace).length ≤ rest.length :=
        (List.dropWhile_suffix notSpace).length_le
      have hresf : (rest.dropWhile notSpace).length ≤ L := by
        simp only [List.length_cons, hl] at hlen
        omega
      rw [splitChF_congr L (rest.dropWhile notSpace).length (rest.dropWhile notSpace) hresf
        (le_refl _)]
      rfl

theorem takeWhile_append_all {p : Char → Bool} {A B : List Char}
    (hA : ∀ c ∈ A, p c = true) (hB : ∀ c, B.head? = some c → p c = false) :
    (A ++ B).takeWhile p = A ∧ (A ++ B).dropWhile p = B := by
  induction A with
  | nil =>
    simp only [List.nil_append]
    cases B with
    | nil => exact ⟨rfl, rfl⟩
    | cons b bs =>
      have hb : p b = false := hB b rfl
      constructor
      · rw [List.takeWhile_cons, hb]
        rfl
      · rw [List.dropWhile_cons, hb]
        rfl
  | cons a A ih =>
    have ha : p a = true := hA a (List.mem_cons_self a A)
    obtain ⟨ih1, ih2⟩ := ih (fun c hc => hA c (List.mem_cons_of_mem a hc))
    constructor
    · rw [List.cons_append, List.takeWhile_cons, ha]
      simp [ih1]
    · rw [List.cons_append, List.dropWhile_cons, ha]
      simp [ih2]

theorem splitCh_tok {tok cs : List Char} (hne : tok ≠ [])
    (hws : ∀ c ∈ tok, pyIsSpace c = false)
    (hcs : ∀ c, cs.head? = some c → pyIsSpace c = true) :
    splitCh (tok ++ cs) = tok :: splitCh cs := by
  rw [splitCh_step]
  have hdw : (tok ++ cs).dropWhile pyIsSpace = tok ++ cs :=
    dropWhile_eq_self_of_head (fun c hc => by
      cases tok with
      | nil => exact absurd rfl hne
      | cons t ts =>
        simp only [List.cons_append, List.head?_cons, Option.some.injEq] at hc
        rw [← hc]
        exact hws t (List.mem_cons_self t ts))
  rw [hdw]
  cases htok : tok with
  | nil => exact absurd htok hne
  | cons t ts =>
    subst htok
    have hts : ∀ c ∈ ts, notSpace c = true := fun c hc => by
      simp [notSpace, hws c (List.mem_cons_of_mem t hc)]
    have hcsh : ∀ c, cs.head? = some c → notSpace c = false := fun c hc => by
      simp [notSpace, hcs c hc]
    obtain ⟨h1, h2⟩ := takeWhile_append_all hts hcsh
    show (t :: ((ts ++ cs).takeWhile notSpace)) :: splitCh ((ts ++ cs).dropWhile notSpace) =
      (t :: ts) :: splitCh cs
    rw [h1, h2]

theorem splitCh_single {tok : List Char} (hne : tok ≠ [])
    (hws : ∀ c ∈ tok, pyIsSpace c = false) : splitCh tok = [tok] := by
  have h := @splitCh_tok tok [] hne hws (fun c hc => by cases hc)
  simpa using h

theorem splitCh_cons_space {c : Char} {cs : List Char} (hc : pyIsSpace c = true) :
    splitCh (c :: cs) = splitCh cs := by
  rw [splitCh_step, List.dropWhile_cons, if_pos hc, ← splitCh_step]

theorem joinSep_space_data (ss : List String) :
    (joinSep " " ss).data = interChar (ss.map String.data) := by
  induction ss with
  | nil => rfl
  | cons s rest ih =>
    cases rest with
    | nil => rfl
    | cons s2 rest2 =>
      show (s ++ " " ++ joinSep " " (s2 :: rest2)).data = _
      rw [String.data_append, String.data_append, ih]
      rw [List.append_assoc]
      rfl

theorem splitCh_interChar (ts : List (List Char))
    (h : ∀ t ∈ ts, t ≠ [] ∧ ∀ c ∈ t, pyIsSpace c = false) :
    splitCh (interChar ts) = ts := by
  induction ts with
  | nil => rfl
  | cons t rest ih =>
    cases rest with
    | nil =>
      show splitCh t = [t]
      exact splitCh_single (h t (List.mem_cons_self t _)).1 (h t (List.mem_cons_self t _)).2
    | cons t2 rest2 =>
      show splitCh (t ++ ' ' :: interChar (t2 :: rest2)) = t :: t2 :: rest2
      rw [splitCh_tok (h t (List.mem_cons_self t _)).1 (h t (List.mem_cons_self t _)).2
        (fun c hc => by
          simp only [List.head?_cons, Option.some.injEq] at hc
          rw [← hc]
          rfl)]
      rw [@splitCh_cons_space ' ' (interChar (t2 :: rest2)) rfl]
      rw [ih (fun x hx => h x (List.mem_cons_of_mem t hx))]

theorem splitCh_tokens_aux : ∀ (n : Nat) (cs : List Char), cs.length ≤ n →
    ∀ t ∈ splitCh cs, t ≠ [] ∧ ∀ c ∈ t, pyIsSpace c = false ∧ c ∈ cs := by
  intro n
  induction n with
  | zero =>
    intro cs hcs t ht
    have hnil : cs = [] := List.length_eq_zero.mp (by omega)
    subst hnil
    cases ht
  | succ n ih =>
    intro cs hcs t ht
    rw [splitCh_step] at ht
    cases hdw : cs.dropWhile pyIsSpace with
    | nil => rw [hdw] at ht; cases ht
    | cons c rest =>
      rw [hdw] at ht
      have hsub : ∀ x ∈ c :: rest, x ∈ cs := fun x hx =>
        (List.dropWhile_suffix pyIsSpace).subset (hdw ▸ hx)
      have hcns : pyIsSpace c = false := head?_dropWhile (by rw [hdw]; rfl)
      have hlen : (c :: rest).length ≤ cs.length := by
        rw [← hdw]
        exact (List.dropWhile_suffix pyIsSpace).length_le
      rcases List.mem_cons.mp ht with rfl | ht2
      · refine ⟨by simp, ?_⟩
        intro x hx
        rcases List.mem_cons.mp hx with rfl | hx2
        · exact ⟨hcns, hsub _ (List.mem_cons_self _ _)⟩
        · have hxns : notSpace x = true := List.mem_takeWhile_imp hx2
          refine ⟨by simpa [notSpace] using hxns, ?_⟩
          exact hsub x (List.mem_cons_of_mem c (List.takeWhile_subset _ hx2))
      · have hrest : (rest.dropWhile notSpace).length ≤ rest.length :=
          (List.dropWhile_suffix notSpace).length_le
        have hlt : (rest.dropWhile notSpace).length ≤ n := by
          simp only [List.length_cons] at hlen
          omega
        obtain ⟨h1, h2⟩ := ih (rest.dropWhile notSpace) hlt t ht2
        refine ⟨h1, fun x hx => ⟨(h2 x hx).1, ?_⟩⟩
        have hxr : x ∈ rest := (List.dropWhile_suffix notSpace).subset (h2 x hx).2
        exact hsub x (List.mem_cons_of_mem c hxr)

theorem splitCh_tokens (cs : List Char) :
    ∀ t ∈ splitCh cs, t ≠ [] ∧ ∀ c ∈ t, pyIsSpace c = false ∧ c ∈ cs :=
  splitCh_tokens_aux cs.length cs (le_refl _)

/-! ### Printed scalars are well-formed tokens -/

theorem natStr_data (n : Nat) : (natStr n).data = natDecChars n := rfl

theorem intStr_data : ∀ n : Int, (intStr n).data = match n with
    | .ofNat m => natDecChars m
    | .negSucc m => '-' :: natDecChars (m + 1)
  | .ofNat _ => rfl
  | .negSucc _ => rfl

theorem intStr_ne_nil (n : Int) : (intStr n).data ≠ [] := by
  rw [intStr_data]
  cases n with
  | ofNat m => exact natDecChars_ne_nil m
  | negSucc m => simp

theorem intStr_not_space (n : Int) : ∀ c ∈ (intStr n).data, pyIsSpace c = false := by
  rw [intStr_data]
  cases n with
  | ofNat m => exact fun c hc => digit_not_space (natDecChars_digits m c hc)
  | negSucc m =>
    intro c hc
    rcases List.mem_cons.mp hc with rfl | hc2
    · decide
    · exact digit_not_space (natDecChars_digits (m + 1) c hc2)

theorem intStr_no_semi (n : Int) : ∀ c ∈ (intStr n).data, c ≠ ';' := by
  rw [intStr_data]
  cases n with
  | ofNat m => exact fun c hc => (digit_ne_chars (natDecChars_digits m c hc)).1
  | negSucc m =>
    intro c hc
    rcases List.mem_cons.mp hc with rfl | hc2
    · decide
    · exact (digit_ne_chars (natDecChars_digits (m + 1) c hc2)).1

theorem decChars_ne_nil (a : Nat) (e : Int) : decChars a e ≠ [] :=
  List.ne_nil_of_mem (dot_mem_decChars a e)

theorem pyDecStr_data : ∀ f : PyFloat, (pyDecStr f).data = match f with
    | .nan => ['n', 'a', 'n']
    | .pinf => ['i', 'n', 'f']
    | .ninf => ['-', 'i', 'n', 'f']
    | .fin m e => (if m < 0 then ['-'] else []) ++ decChars m.natAbs e
  | .nan => rfl
  | .pinf => rfl
  | .ninf => rfl
  | .fin m e => by
    show ((if m < 0 then "-" else "") ++ String.mk (decChars m.natAbs e)).data =
      (if m < 0 then ['-'] else []) ++ decChars m.natAbs e
    by_cases hm : m < 0
    · simp only [if_pos hm]
      rfl
    · simp only [if_neg hm]
      rfl

theorem pyDecStr_ne_nil (f : PyFloat) : (pyDecStr f).data ≠ [] := by
  rw [pyDecStr_data]
  cases f with
  | nan => simp
  | pinf => simp
  | ninf => simp
  | fin m e =>
    intro h
    rcases List.append_eq_nil.mp h with ⟨-, h2⟩
    exact decChars_ne_nil m.natAbs e h2

theorem pyDecStr_not_space (f : PyFloat) : ∀ c ∈ (pyDecStr f).data, pyIsSpace c = false := by
  rw [pyDecStr_data]
  cases f with
  | nan => decide
  | pinf => decide
  | ninf => decide
  | fin m e =>
    intro c hc
    rcases List.mem_append.mp hc with h1 | h2
    · by_cases hm : m < 0
      · rw [if_pos hm] at h1
        simp only [List.mem_singleton] at h1
        subst h1
        decide
      · rw [if_neg hm] at h1
        cases h1
    · exact decChars_not_space m.natAbs e c h2

theorem pyDecStr_no_semi (f : PyFloat) : ∀ c ∈ (pyDecStr f).data, c ≠ ';' := by
  rw [pyDecStr_data]
  cases f with
  | nan => decide
  | pinf => decide
  | ninf => decide
  | fin m e =>
    intro c hc
    rcases List.mem_append.mp hc with h1 | h2
    · by_cases hm : m < 0
      · rw [if_pos hm] at h1
        simp only [List.mem_singleton] at h1
        subst h1
        decide
      · rw [if_neg hm] at h1
        cases h1
    · rcases decChars_charset m.natAbs e c h2 with hd | hd
      · exact (digit_ne_chars hd).1
      · subst hd; decide

/-! ### optMapM on printed tokens -/

theorem optMapM_cons_some {α β : Type} (f : α → Option β) (x : α) (xs : List α) {y : β}
    (h : f x = some y) : optMapM f (x :: xs) = (optMapM f xs).map (y :: ·) := by
  show (match f x with
    | some y => (optMapM f xs).map (y :: ·)
    | none => none) = _
  rw [h]

theorem optMapM_int_map (ns : List Int) :
    optMapM pyIntChars (ns.map (fun n => (intStr n).data)) = some ns := by
  induction ns with
  | nil => rfl
  | cons n rest ih =>
    rw [List.map_cons, optMapM_cons_some pyIntChars _ _ (pyInt_roundtrip n), ih]
    rfl

theorem optMapM_float_map (fs : List PyFloat) (hok : ∀ f ∈ fs, FloatOk f) :
    optMapM pyFloatChars (fs.map (fun f => (pyDecStr f).data)) = some fs := by
  induction fs with
  | nil => rfl
  | cons f rest ih =>
    rw [List.map_cons,
      optMapM_cons_some pyFloatChars _ _ (pyFloat_roundtrip f (hok f (List.mem_cons_self f rest))),
      ih (fun g hg => hok g (List.mem_cons_of_mem f hg))]
    rfl

/-! ### convertToNumeric inverts valStr on well-formed values -/

theorem convertToNumeric_eq (s : String) :
    convertToNumeric s =
      match optMapM pyIntChars (splitCh s.data) with
      | some ns =>
        match ns with
        | [n] => .scalar (.int n)
        | _ => .list (ns.map .int)
      | none =>
        match optMapM pyFloatChars (splitCh s.data) with
        | some fs =>
          match fs with
          | [f] => .scalar (.float f)
          | _ => .list (fs.map .float)
        | none =>
          match splitCh s.data with
          | [t] => .scalar (.str (String.mk t))
          | _ => .list ((splitCh s.data).map (fun t => .str (String.mk t))) := rfl

theorem valStr_list (xs : List PyScalar) :
    (valStr (.list xs)).data = interChar (xs.map (fun x => (scalarStr x).data)) := by
  show (joinSep " " (xs.map scalarStr)).data = _
  rw [joinSep_space_data, List.map_map]
  rfl

theorem splitCh_valStr_list (xs : List PyScalar)
    (h : ∀ x ∈ xs, (scalarStr x).data ≠ [] ∧ ∀ c ∈ (scalarStr x).data, pyIsSpace c = false) :
    splitCh (valStr (.list xs)).data = xs.map (fun x => (scalarStr x).data) := by
  rw [valStr_list]
  exact splitCh_interChar _ (fun t ht => by
    rcases List.mem_map.mp ht with ⟨x, hx, rfl⟩
    exact h x hx)

theorem conv_roundtrip : ∀ {v : PyVal}, GoodVal v → convertToNumeric (valStr v) = v := by
  intro v h
  cases h with
  | int n =>
    rw [convertToNumeric_eq]
    have htoks : splitCh (valStr (.scalar (.int n))).data = [(intStr n).data] :=
      splitCh_single (intStr_ne_nil n) (intStr_not_space n)
    rw [htoks, optMapM_cons_some pyIntChars _ _ (pyInt_roundtrip n)]
    rfl
  | float f hf =>
    rw [convertToNumeric_eq]
    have htoks : splitCh (valStr (.scalar (.float f))).data = [(pyDecStr f).data] :=
      splitCh_single (pyDecStr_ne_nil f) (pyDecStr_not_space f)
    rw [htoks, optMapM_none_of_mem pyIntChars (List.mem_singleton_self _)
      (pyInt_of_decStr_none f)]
    rw [optMapM_cons_some pyFloatChars _ _ (pyFloat_roundtrip f hf)]
    rfl
  | str t ht hi hf =>
    rw [convertToNumeric_eq]
    have htoks : splitCh (valStr (.scalar (.str t))).data = [t.data] :=
      splitCh_single ht.1 (fun c hc => (ht.2 c hc).1)
    rw [htoks, optMapM_none_of_mem pyIntChars (List.mem_singleton_self _) hi,
      optMapM_none_of_mem pyFloatChars (List.mem_singleton_self _) hf]
  | ints ns hlen =>
    rw [convertToNumeric_eq]
    have htoks : splitCh (valStr (.list (ns.map .int))).data =
        ns.map (fun n => (intStr n).data) := by
      rw [splitCh_valStr_list _ (fun x hx => by
        rcases List.mem_map.mp hx with ⟨n, -, rfl⟩
        exact ⟨intStr_ne_nil n, intStr_not_space n⟩)]
      rw [List.map_map]
      rfl
    rw [htoks, optMapM_int_map]
    cases ns with
    | nil => rfl
    | cons n rest =>
      cases rest with
      | nil => exact absurd rfl hlen
      | cons n2 rest2 => rfl
  | floats fs h2 hok =>
    rw [convertToNumeric_eq]
    have htoks : splitCh (valStr (.list (fs.map .float))).data =
        fs.map (fun f => (pyDecStr f).data) := by
      rw [splitCh_valStr_list _ (fun x hx => by
        rcases List.mem_map.mp hx with ⟨f, -, rfl⟩
        exact ⟨pyDecStr_ne_nil f, pyDecStr_not_space f⟩)]
      rw [List.map_map]
      rfl
    cases fs with
    | nil => simp at h2
    | cons f rest =>
      rw [htoks, optMapM_none_of_mem pyIntChars
        (List.mem_map_of_mem _ (List.mem_cons_self f rest)) (pyInt_of_decStr_none f)]
      rw [optMapM_float_map _ hok]
      cases rest with
      | nil => simp at h2
      | cons f2 rest2 => rfl
  | strs ts h2 hok hex =>
    rw [convertToNumeric_eq]
    obtain ⟨t0, ht0, hf0⟩ := hex
    have hi0 : pyIntChars t0.data = none := by
      cases hi : pyIntChars t0.data with
      | none => rfl
      | some n => exact absurd (pyFloat_of_pyInt hi).choose_spec (by simp [hf0])
    have htoks : splitCh (valStr (.list (ts.map .str))).data =
        ts.map (fun t => t.data) := by
      rw [splitCh_valStr_list _ (fun x hx => by
        rcases List.mem_map.mp hx with ⟨t, htm, rfl⟩
        exact ⟨(hok t htm).1, fun c hc => ((hok t htm).2 c hc).1⟩)]
      rw [List.map_map]
      rfl
    rw [htoks, optMapM_none_of_mem pyIntChars (List.mem_map_of_mem _ ht0) hi0,
      optMapM_none_of_mem pyFloatChars (List.mem_map_of_mem _ ht0) hf0]
    cases ts with
    | nil => simp at h2
    | cons t rest =>
      cases rest with
      | nil => simp at h2
      | cons t2 rest2 =>
        show PyVal.list (((t :: t2 :: rest2).map (fun t => t.data)).map
          (fun t => .str (String.mk t))) = _
        rw [List.map_map]
        rfl

/-! ### Every value the converter stores is well-formed -/

theorem pyFloatChars_FloatOk {cs : List Char} {f : PyFloat}
    (h : pyFloatChars cs = some f) : FloatOk f := by
  have h2 : (match splitSign (stripCore cs) with
    | (neg, ds) =>
      match floatBody ds with
      | some (m, e) => some (mkFin (applySign neg m) e)
      | none =>
        if lowerAll ds = "inf".data || lowerAll ds = "infinity".data then
          some (if neg then PyFloat.ninf else PyFloat.pinf)
        else if lowerAll ds = "nan".data then some PyFloat.nan
        else none) = some f := h
  cases hsp : splitSign (stripCore cs) with
  | mk neg ds =>
    rw [hsp] at h2
    replace h2 : (match floatBody ds with
      | some (m, e) => some (mkFin (applySign neg m) e)
      | none =>
        if lowerAll ds = "inf".data || lowerAll ds = "infinity".data then
          some (if neg then PyFloat.ninf else PyFloat.pinf)
        else if lowerAll ds = "nan".data then some PyFloat.nan
        else none) = some f := h2
    cases hfb : floatBody ds with
    | some p =>
      rw [hfb] at h2
      cases p with
      | mk m e =>
        replace h2 : some (mkFin (applySign neg m) e) = some f := h2
        have hf : f = mkFin (applySign neg m) e := (Option.some.injEq _ _ ▸ h2).symm
        rw [hf]
        exact mkFin_FloatOk _ _
    | none =>
      rw [hfb] at h2
      by_cases hw : lowerAll ds = "inf".data || lowerAll ds = "infinity".data
      · rw [if_pos hw] at h2
        have hf : f = if neg then PyFloat.ninf else PyFloat.pinf :=
          (Option.some.injEq _ _ ▸ h2).symm
        rw [hf]
        cases neg with
        | true => exact trivial
        | false => exact trivial
      · rw [if_neg hw] at h2
        by_cases hn : lowerAll ds = "nan".data
        · rw [if_pos hn] at h2
          have hf : f = PyFloat.nan := (Option.some.injEq _ _ ▸ h2).symm
          rw [hf]
          exact trivial
        · rw [if_neg hn] at h2
          cases h2

theorem optMapM_out_mem {α β : Type} {f : α → Option β} {l : List α} {r : List β}
    (h : optMapM f l = some r) : ∀ b ∈ r, ∃ a ∈ l, f a = some b := by
  induction l generalizing r with
  | nil =>
    simp only [optMapM, Option.some.injEq] at h
    subst h
    intro b hb
    cases hb
  | cons x xs ih =>
    simp only [optMapM] at h
    cases hx : f x with
    | none => rw [hx] at h; cases h
    | some y =>
      rw [hx] at h
      cases hr : optMapM f xs with
      | none => rw [hr] at h; cases h
      | some ys =>
        rw [hr] at h
        simp only [Option.map_some', Option.some.injEq] at h
        subst h
        intro b hb
        rcases List.mem_cons.mp hb with rfl | hb2
        · exact ⟨x, List.mem_cons_self x xs, hx⟩
        · obtain ⟨a, ha, hfa⟩ := ih hr b hb2
          exact ⟨a, List.mem_cons_of_mem x ha, hfa⟩

theorem optMapM_singleton_none {α β : Type} {f : α → Option β} {a : α}
    (h : optMapM f [a] = none) : f a = none := by
  cases hfa : f a with
  | none => rfl
  | some y =>
    rw [optMapM_cons_some f a [] hfa] at h
    cases h

theorem conv_good (s : String) (hs : ∀ c ∈ s.data, c ≠ ';') :
    GoodVal (convertToNumeric s) := by
  rw [convertToNumeric_eq]
  cases hint : optMapM pyIntChars (splitCh s.data) with
  | some ns =>
    cases ns with
    | nil => exact GoodVal.ints [] (by simp)
    | cons n rest =>
      cases rest with
      | nil => exact GoodVal.int n
      | cons n2 r2 =>
        exact GoodVal.ints (n :: n2 :: r2) (by simp only [List.length_cons]; omega)
  | none =>
    have hne : splitCh s.data ≠ [] := by
      intro h0
      rw [h0] at hint
      cases hint
    cases hflt : optMapM pyFloatChars (splitCh s.data) with
    | some fs =>
      have hok : ∀ f ∈ fs, FloatOk f := by
        intro f hf
        obtain ⟨a, -, hfa⟩ := optMapM_out_mem hflt f hf
        exact pyFloatChars_FloatOk hfa
      have hlen : fs.length = (splitCh s.data).length := optMapM_length _ hflt
      cases fs with
      | nil =>
        exact absurd (List.length_eq_zero.mp hlen.symm) hne
      | cons f rest =>
        cases rest with
        | nil => exact GoodVal.float f (hok f (List.mem_cons_self f []))
        | cons f2 r2 =>
          exact GoodVal.floats (f :: f2 :: r2) (by simp only [List.length_cons]; omega) hok
    | none =>
      have htoksOk : ∀ t ∈ splitCh s.data, TokOk t := by
        intro t ht
        obtain ⟨hne2, hall⟩ := splitCh_tokens s.data t ht
        exact ⟨hne2, fun c hc => ⟨(hall c hc).1, hs c (hall c hc).2⟩⟩
      cases htk : splitCh s.data with
      | nil => exact absurd htk hne
      | cons t rest =>
        rw [htk] at hint hflt htoksOk
        cases rest with
        | nil =>
          have hti : pyIntChars t = none := optMapM_singleton_none hint
          have htf : pyFloatChars t = none := optMapM_singleton_none hflt
          exact GoodVal.str (String.mk t) (htoksOk t (List.mem_cons_self t []))
            hti htf
        | cons t2 r2 =>
          show GoodVal (.list ((t :: t2 :: r2).map (fun x => .str (String.mk x))))
          have hmm : (t :: t2 :: r2).map (fun x => PyScalar.str (String.mk x)) =
              ((t :: t2 :: r2).map String.mk).map PyScalar.str := by
            rw [List.map_map]
            rfl
          rw [hmm]
          refine GoodVal.strs ((t :: t2 :: r2).map String.mk) ?_ ?_ ?_
          · simp only [List.length_map, List.length_cons]
            omega
          · intro u hu
            rcases List.mem_map.mp hu with ⟨a, ha, rfl⟩
            exact htoksOk a ha
          · obtain ⟨a, ha, hfa⟩ := optMapM_none_exists hflt
            exact ⟨String.mk a, List.mem_map_of_mem String.mk ha, hfa⟩

/-! ### Printed values: token shape, heads, tails -/

theorem scalarTok_int (n : Int) : ScalarTok (.int n) :=
  ⟨intStr_ne_nil n, fun c hc => ⟨intStr_not_space n c hc, intStr_no_semi n c hc⟩⟩

theorem scalarTok_float (f : PyFloat) : ScalarTok (.float f) :=
  ⟨pyDecStr_ne_nil f, fun c hc => ⟨pyDecStr_not_space f c hc, pyDecStr_no_semi f c hc⟩⟩

theorem scalarTok_str {t : String} (h : TokOk t.data) : ScalarTok (.str t) :=
  ⟨h.1, h.2⟩

theorem goodVal_scalar_tok {x : PyScalar} (h : GoodVal (.scalar x)) : ScalarTok x := by
  cases h with
  | int n => exact scalarTok_int n
  | float f hf => exact scalarTok_float f
  | str t ht hi hf => exact scalarTok_str ht

theorem goodVal_list_tok {xs : List PyScalar} (h : GoodVal (.list xs)) :
    ∀ x ∈ xs, ScalarTok x := by
  cases h with
  | ints ns hn =>
    intro x hx
    rcases List.mem_map.mp hx with ⟨n, -, rfl⟩
    exact scalarTok_int n
  | floats fs h2 hok =>
    intro x hx
    rcases List.mem_map.mp hx with ⟨f, -, rfl⟩
    exact scalarTok_float f
  | strs ts h2 hok hf =>
    intro x hx
    rcases List.mem_map.mp hx with ⟨t, ht, rfl⟩
    exact scalarTok_str (hok t ht)

theorem interChar_mem {c : Char} : ∀ {ts : List (List Char)}, c ∈ interChar ts →
    c = ' ' ∨ ∃ t ∈ ts, c ∈ t := by
  intro ts
  induction ts with
  | nil => intro hc; cases hc
  | cons t rest ih =>
    intro hc
    cases rest with
    | nil => exact Or.inr ⟨t, List.mem_cons_self t [], hc⟩
    | cons t2 r2 =>
      replace hc : c ∈ t ++ ' ' :: interChar (t2 :: r2) := hc
      rcases List.mem_append.mp hc with h1 | h2
      · exact Or.inr ⟨t, List.mem_cons_self t (t2 :: r2), h1⟩
      · rcases List.mem_cons.mp h2 with rfl | h3
        · exact Or.inl rfl
        · rcases ih h3 with h4 | ⟨u, hu, hcu⟩
          · exact Or.inl h4
          · exact Or.inr ⟨u, List.mem_cons_of_mem t hu, hcu⟩

theorem interChar_ne_nil : ∀ {ts : List (List Char)}, ts ≠ [] → (∀ t ∈ ts, t ≠ []) →
    interChar ts ≠ [] := by
  intro ts h1 h2
  cases ts with
  | nil => exact absurd rfl h1
  | cons t rest =>
    cases rest with
    | nil => exact h2 t (List.mem_cons_self t [])
    | cons t2 r2 =>
      show t ++ ' ' :: interChar (t2 :: r2) ≠ []
      simp

theorem interChar_head {t : List Char} {rest : List (List Char)} {c : Char} (ht : t ≠ [])
    (h : (interChar (t :: rest)).head? = some c) : t.head? = some c := by
  cases rest with
  | nil => exact h
  | cons t2 r2 =>
    replace h : (t ++ ' ' :: interChar (t2 :: r2)).head? = some c := h
    cases t with
    | nil => exact absurd rfl ht
    | cons a b => exact h

theorem interChar_last : ∀ {ts : List (List Char)} {c : Char}, (∀ t ∈ ts, t ≠ []) →
    (interChar ts).getLast? = some c → ∃ t ∈ ts, t.getLast? = some c := by
  intro ts
  induction ts with
  | nil => intro c h hl; cases hl
  | cons t rest ih =>
    intro c hne hl
    cases rest with
    | nil => exact ⟨t, List.mem_cons_self t [], hl⟩
    | cons t2 r2 =>
      replace hl : (t ++ ' ' :: interChar (t2 :: r2)).getLast? = some c := hl
      have hn2 : interChar (t2 :: r2) ≠ [] :=
        interChar_ne_nil (by simp) (fun u hu => hne u (List.mem_cons_of_mem t hu))
      rw [List.getLast?_append_cons] at hl
      cases hic : interChar (t2 :: r2) with
      | nil => exact absurd hic hn2
      | cons a b =>
        rw [hic, List.getLast?_cons_cons] at hl
        obtain ⟨u, hu, hlu⟩ := ih (fun u hu => hne u (List.mem_cons_of_mem t hu))
          (by rw [hic]; exact hl)
        exact ⟨u, List.mem_cons_of_mem t hu, hlu⟩

theorem valStr_no_semi {v : PyVal} (h : GoodVal v) : ∀ c ∈ (valStr v).data, c ≠ ';' := by
  cases v with
  | scalar x => exact fun c hc => ((goodVal_scalar_tok h).2 c hc).2
  | list xs =>
    intro c hc
    rw [valStr_list] at hc
    rcases interChar_mem hc with rfl | ⟨t, ht, hct⟩
    · decide
    · rcases List.mem_map.mp ht with ⟨x, hx, rfl⟩
      exact ((goodVal_list_tok h x hx).2 c hct).2

theorem valStr_head_ns {v : PyVal} (h : GoodVal v) :
    ∀ c, (valStr v).data.head? = some c → pyIsSpace c = false := by
  cases v with
  | scalar x =>
    exact fun c hc => ((goodVal_scalar_tok h).2 c (List.mem_of_mem_head? hc)).1
  | list xs =>
    intro c hc
    rw [valStr_list] at hc
    cases xs with
    | nil => cases hc
    | cons x xr =>
      have hx := goodVal_list_tok h x (List.mem_cons_self x xr)
      replace hc : (interChar ((scalarStr x).data :: xr.map (fun u => (scalarStr u).data))).head?
          = some c := hc
      have hhd := interChar_head hx.1 hc
      exact (hx.2 c (List.mem_of_mem_head? hhd)).1

theorem valStr_last_ns {v : PyVal} (h : GoodVal v) :
    ∀ c, (valStr v).data.getLast? = some c → pyIsSpace c = false := by
  cases v with
  | scalar x =>
    exact fun c hc => ((goodVal_scalar_tok h).2 c (List.mem_of_getLast?_eq_some hc)).1
  | list xs =>
    intro c hc
    rw [valStr_list] at hc
    obtain ⟨t, ht, hlt⟩ := interChar_last (fun t ht => by
      rcases List.mem_map.mp ht with ⟨x, hx, rfl⟩
      exact (goodVal_list_tok h x hx).1) hc
    rcases List.mem_map.mp ht with ⟨x, hx, rfl⟩
    exact ((goodVal_list_tok h x hx).2 c (List.mem_of_getLast?_eq_some hlt)).1

/-! ### Classification of the lines MDP.write emits -/

theorem mk_cons_ne_empty (c : Char) (cs : List Char) : String.mk (c :: cs) ≠ "" := by
  intro h
  have h2 := congrArg String.data h
  cases h2

theorem data_nil_eq_empty {t : String} (h : t.data = []) : t = "" := by
  cases t with
  | mk d =>
    simp only at h
    rw [h]

theorem classify_written_blank : classifyLine "" = .blank := rfl

theorem classify_written_comment (t : String) (ht : TxtOk t) :
    classifyLine ("; " ++ t) = .comment t := by
  by_cases hte : t = ""
  · subst hte
    decide
  · have htd : t.data ≠ [] := fun h0 => hte (data_nil_eq_empty h0)
    have hdata : ("; " ++ t).data = ';' :: ' ' :: t.data := by
      rw [String.data_append]
      rfl
    have hsc : stripCore (("; " ++ t).data) = ("; " ++ t).data := by
      rw [hdata]
      apply stripCore_eq_self
      · intro c hc
        have h2 : ';' = c := Option.some.inj hc
        subst h2
        decide
      · intro c hc
        rw [show (';' :: ' ' :: t.data) = [';', ' '] ++ t.data from rfl,
          List.getLast?_append_of_ne_nil _ htd] at hc
        exact g_last_not_space ht c hc
    have hstrip : pyStrip ("; " ++ t) = "; " ++ t := by
      show String.mk (stripCore ("; " ++ t).data) = "; " ++ t
      rw [hsc]
    have hne : ("; " ++ t) ≠ "" := by
      intro h
      have h2 := congrArg String.data h
      rw [hdata] at h2
      cases h2
    have hcm : commentMatch ("; " ++ t) = some t := by
      unfold commentMatch
      rw [hdata]
      have hdw : (';' :: ' ' :: t.data).dropWhile pyIsSpace = ';' :: ' ' :: t.data :=
        dropWhile_eq_self_of_head (fun c hc => by
          have h2 : ';' = c := Option.some.inj hc
          subst h2
          decide)
      rw [hdw]
      show (if (';' : Char) = ';' then some (String.mk ((' ' :: t.data).dropWhile pyIsSpace))
        else none) = some t
      rw [if_pos rfl]
      have hdw2 : (' ' :: t.data).dropWhile pyIsSpace = t.data := by
        rw [List.dropWhile_cons]
        rw [if_pos (by decide)]
        exact ltrim_eq_self (g_head_not_space ht)
      rw [hdw2]
    unfold classifyLine
    rw [hstrip, if_neg hne, hcm]

theorem valStr_data_nil {v : PyVal} (h : (valStr v).data = []) : valStr v = "" :=
  data_nil_eq_empty h

theorem classify_written_param (k : String) (v : PyVal) (hk : KeyOk k) (hv : GoodVal v) :
    classifyLine (k ++ " = " ++ valStr v) = .param k (valStr v) := by
  obtain ⟨hkne, hkstrip, hkeq, hksemi, hkB, hkC⟩ := hk
  have hkhead : ∀ c, k.data.head? = some c → pyIsSpace c = false :=
    g_head_not_space hkstrip
  have hdata : (k ++ " = " ++ valStr v).data =
      k.data ++ [' ', '='] ++ ' ' :: (valStr v).data := by
    rw [String.data_append, String.data_append]
    simp
  have hA : ∀ c ∈ k.data ++ [' '], (c = '=' : Bool) = false := by
    intro c hc
    rcases List.mem_append.mp hc with h1 | h2
    · simp only [decide_eq_false_iff_not]
      intro he
      subst he
      exact hkeq h1
    · simp only [List.mem_singleton] at h2
      subst h2
      decide
  have hkey : stripCore (k.data ++ [' ']) = k.data := by
    show rtrim (ltrim (k.data ++ [' '])) = k.data
    have hlt : ltrim (k.data ++ [' ']) = k.data ++ [' '] := by
      apply ltrim_eq_self
      intro c hc
      rw [List.head?_append_of_ne_nil _ hkne] at hc
      exact hkhead c hc
    rw [hlt, rtrim_concat_space _ _ (by decide)]
    rw [show rtrim k.data = rtrim (ltrim k.data) from by rw [ltrim_eq_self hkhead]]
    exact hkstrip
  have hheadL : ∀ c, (k.data ++ [' ', '='] ++ ' ' :: (valStr v).data).head? = some c →
      k.data.head? = some c := by
    intro c hc
    rw [List.append_assoc, List.head?_append_of_ne_nil _ hkne] at hc
    exact hc
  by_cases hV : (valStr v).data = []
  · -- empty value: the written line is `k = ` and strips to `k =`
    have hveq : valStr v = "" := valStr_data_nil hV
    have hdata2 : (k ++ " = " ++ valStr v).data = (k.data ++ [' ', '=']) ++ [' '] := by
      rw [hdata, hV]
    have hsc : stripCore ((k ++ " = " ++ valStr v).data) = k.data ++ [' ', '='] := by
      rw [hdata2]
      show rtrim (ltrim _) = _
      have hlt : ltrim ((k.data ++ [' ', '=']) ++ [' ']) = (k.data ++ [' ', '=']) ++ [' '] := by
        apply ltrim_eq_self
        intro c hc
        rw [List.head?_append_of_ne_nil _ (by simp [hkne]),
          List.head?_append_of_ne_nil _ hkne] at hc
        exact hkhead c hc
      rw [hlt, rtrim_concat_space _ _ (by decide)]
      apply rtrim_eq_self
      intro c hc
      rw [show k.data ++ [' ', '='] = (k.data ++ [' ']) ++ ['='] from by simp,
        List.getLast?_concat] at hc
      have h2 : '=' = c := Option.some.inj hc
      subst h2
      decide
    have hstrip : pyStrip (k ++ " = " ++ valStr v) = String.mk (k.data ++ [' ', '=']) := by
      show String.mk (stripCore (k ++ " = " ++ valStr v).data) = _
      rw [hsc]
    have hne : String.mk (k.data ++ [' ', '=']) ≠ "" := by
      cases hkd : k.data with
      | nil => exact absurd hkd hkne
      | cons a b => exact mk_cons_ne_empty a (b ++ [' ', '='])
    have hcm : commentMatch (String.mk (k.data ++ [' ', '='])) = none := by
      apply commentMatch_none
      · show List.dropWhile pyIsSpace (k.data ++ [' ', '=']) = k.data ++ [' ', '=']
        apply dropWhile_eq_self_of_head
        intro c hc
        rw [List.head?_append_of_ne_nil _ hkne] at hc
        exact hkhead c hc
      · intro hc
        rw [show (String.mk (k.data ++ [' ', '='])).data = k.data ++ [' ', '='] from rfl,
          List.head?_append_of_ne_nil _ hkne] at hc
        exact hksemi hc
    have hpm : paramMatch (String.mk (k.data ++ [' ', '='])) = some (k, "") := by
      unfold paramMatch
      have hsf : splitFirst (· = '=') (k.data ++ [' ', '=']) = some (k.data ++ [' '], []) := by
        rw [show k.data ++ [' ', '='] = (k.data ++ [' ']) ++ '=' :: [] from by simp]
        exact splitFirst_append_cons hA (by decide)
      rw [show (String.mk (k.data ++ [' ', '='])).data = k.data ++ [' ', '='] from rfl, hsf]
      show (if stripCore (k.data ++ [' ']) = [] then none
        else some (String.mk (stripCore (k.data ++ [' '])),
          String.mk ((List.dropWhile pyIsSpace []).takeWhile (· ≠ ';')))) = some (k, "")
      rw [hkey, if_neg hkne]
      rfl
    unfold classifyLine
    rw [hstrip, if_neg hne, hcm, hpm, hveq]
  · -- nonempty value: the written line strips to itself
    have hsc : stripCore ((k ++ " = " ++ valStr v).data) = (k ++ " = " ++ valStr v).data := by
      rw [hdata]
      apply stripCore_eq_self
      · intro c hc
        exact hkhead c (hheadL c hc)
      · intro c hc
        rw [show k.data ++ [' ', '='] ++ ' ' :: (valStr v).data =
            (k.data ++ [' ', '=', ' ']) ++ (valStr v).data from by simp,
          List.getLast?_append_of_ne_nil _ hV] at hc
        exact valStr_last_ns hv c hc
    have hstrip : pyStrip (k ++ " = " ++ valStr v) = k ++ " = " ++ valStr v := by
      show String.mk (stripCore (k ++ " = " ++ valStr v).data) = _
      rw [hsc]
    have hne : (k ++ " = " ++ valStr v) ≠ "" := by
      intro h
      have h2 := congrArg String.data h
      rw [hdata] at h2
      cases hkd : k.data with
      | nil => exact hkne hkd
      | cons a b =>
        rw [hkd] at h2
        cases h2
    have hcm : commentMatch (k ++ " = " ++ valStr v) = none := by
      apply commentMatch_none
      · show List.dropWhile pyIsSpace (k ++ " = " ++ valStr v).data = _
        apply dropWhile_eq_self_of_head
        intro c hc
        rw [hdata] at hc
        exact hkhead c (hheadL c hc)
      · intro hc
        rw [hdata] at hc
        exact hksemi (hheadL ';' hc)
    have hpm : paramMatch (k ++ " = " ++ valStr v) = some (k, valStr v) := by
      unfold paramMatch
      have hsf : splitFirst (· = '=') (k ++ " = " ++ valStr v).data =
          some (k.data ++ [' '], ' ' :: (valStr v).data) := by
        rw [hdata, show k.data ++ [' ', '='] ++ ' ' :: (valStr v).data =
          (k.data ++ [' ']) ++ '=' :: (' ' :: (valStr v).data) from by simp]
        exact splitFirst_append_cons hA (by decide)
      rw [hsf]
      show (if stripCore (k.data ++ [' ']) = [] then none
        else some (String.mk (stripCore (k.data ++ [' '])),
          String.mk ((List.dropWhile pyIsSpace
            (' ' :: (valStr v).data)).takeWhile (· ≠ ';')))) = some (k, valStr v)
      rw [hkey, if_neg hkne]
      have hdw : List.dropWhile pyIsSpace (' ' :: (valStr v).data) = (valStr v).data := by
        rw [List.dropWhile_cons, if_pos (by decide)]
        exact ltrim_eq_self (valStr_head_ns hv)
      rw [hdw]
      have htw : ((valStr v).data).takeWhile (· ≠ ';') = (valStr v).data :=
        List.takeWhile_eq_self_iff.mpr (fun c hc => by
          simp only [decide_eq_true_eq]
          exact valStr_no_semi hv c hc)
      rw [htw]
    unfold classifyLine
    rw [hstrip, if_neg hne, hcm, hpm]

/-! ### Synthetic keys: injectivity and head characters -/

theorem pad4_val (i : Nat) : digitsVal (pad4 i).data = i := by
  show digitsVal (List.replicate (4 - (natDecChars i).length) '0' ++ natDecChars i) = i
  rw [digitsVal_append, digitsVal_replicate_zero, natDecChars_val]
  simp

theorem bKey_data (i : Nat) : (bKey i).data = 'B' :: (pad4 i).data := by
  show ("B" ++ pad4 i).data = _
  rw [String.data_append]
  rfl

theorem cKey_data (i : Nat) : (cKey i).data = 'C' :: (pad4 i).data := by
  show ("C" ++ pad4 i).data = _
  rw [String.data_append]
  rfl

theorem bKey_inj {i j : Nat} (h : bKey i = bKey j) : i = j := by
  have h2 := congrArg String.data h
  rw [bKey_data, bKey_data] at h2
  have h3 : (pad4 i).data = (pad4 j).data := List.tail_eq_of_cons_eq h2
  rw [← pad4_val i, ← pad4_val j, h3]

theorem cKey_inj {i j : Nat} (h : cKey i = cKey j) : i = j := by
  have h2 := congrArg String.data h
  rw [cKey_data, cKey_data] at h2
  have h3 : (pad4 i).data = (pad4 j).data := List.tail_eq_of_cons_eq h2
  rw [← pad4_val i, ← pad4_val j, h3]

theorem bKey_head (i : Nat) : (bKey i).data.head? = some 'B' := by
  rw [bKey_data]
  rfl

theorem cKey_head (i : Nat) : (cKey i).data.head? = some 'C' := by
  rw [cKey_data]
  rfl

theorem bKey_ne_cKey (i j : Nat) : bKey i ≠ cKey j := by
  intro h
  have h2 : (bKey i).data.head? = (cKey j).data.head? := by rw [h]
  rw [bKey_head, cKey_head] at h2
  cases Option.some.inj h2

theorem keyOk_ne_bKey {k : String} (hk : KeyOk k) (i : Nat) : k ≠ bKey i := by
  intro h
  exact hk.2.2.2.2.1 (h ▸ bKey_head i)

theorem keyOk_ne_cKey {k : String} (hk : KeyOk k) (i : Nat) : k ≠ cKey i := by
  intro h
  exact hk.2.2.2.2.2 (h ▸ cKey_head i)

/-! ### Structural lemmas about DocOk -/

theorem DocOk_mono {b c bf cf : Nat} {d : List (String × PyVal)} (h : DocOk b c bf cf d) :
    b ≤ bf ∧ c ≤ cf := by
  induction h with
  | nil b c => exact ⟨le_refl b, le_refl c⟩
  | blank b c bf cf d h ih => exact ⟨le_of_lt (lt_of_lt_of_le (Nat.lt_succ_self b) ih.1), ih.2⟩
  | comment b c bf cf d t ht h ih =>
    exact ⟨ih.1, le_of_lt (lt_of_lt_of_le (Nat.lt_succ_self c) ih.2)⟩
  | param b c bf cf d k v hk hv h ih => exact ih

theorem DocOk_keys {b c bf cf : Nat} {d : List (String × PyVal)} (h : DocOk b c bf cf d) :
    ∀ e ∈ d, (∃ i, b < i ∧ i ≤ bf ∧ e.1 = bKey i) ∨
      (∃ j, c < j ∧ j ≤ cf ∧ e.1 = cKey j) ∨ KeyOk e.1 := by
  induction h with
  | nil b c => intro e he; cases he
  | blank b c bf cf d h ih =>
    intro e he
    rcases List.mem_cons.mp he with rfl | he2
    · exact Or.inl ⟨b + 1, Nat.lt_succ_self b, (DocOk_mono h).1, rfl⟩
    · rcases ih e he2 with ⟨i, hi1, hi2, hi3⟩ | h2 | h3
      · exact Or.inl ⟨i, Nat.lt_of_succ_lt hi1, hi2, hi3⟩
      · exact Or.inr (Or.inl h2)
      · exact Or.inr (Or.inr h3)
  | comment b c bf cf d t ht h ih =>
    intro e he
    rcases List.mem_cons.mp he with rfl | he2
    · exact Or.inr (Or.inl ⟨c + 1, Nat.lt_succ_self c, (DocOk_mono h).2, rfl⟩)
    · rcases ih e he2 with h1 | ⟨j, hj1, hj2, hj3⟩ | h3
      · exact Or.inl h1
      · exact Or.inr (Or.inl ⟨j, Nat.lt_of_succ_lt hj1, hj2, hj3⟩)
      · exact Or.inr (Or.inr h3)
  | param b c bf cf d k v hk hv h ih =>
    intro e he
    rcases List.mem_cons.mp he with rfl | he2
    · exact Or.inr (Or.inr hk)
    · exact ih e he2

theorem DocOk_append {b c b2 c2 b3 c3 : Nat} {d1 d2 : List (String × PyVal)}
    (h1 : DocOk b c b2 c2 d1) (h2 : DocOk b2 c2 b3 c3 d2) : DocOk b c b3 c3 (d1 ++ d2) := by
  induction h1 with
  | nil b c => exact h2
  | blank b c bf cf d h ih => exact DocOk.blank _ _ _ _ _ (ih h2)
  | comment b c bf cf d t ht h ih => exact DocOk.comment _ _ _ _ _ t ht (ih h2)
  | param b c bf cf d k v hk hv h ih => exact DocOk.param _ _ _ _ _ k v hk hv (ih h2)

theorem DocOk_nil_inv {b c bf cf : Nat} (h : DocOk b c bf cf ([] : List (String × PyVal))) :
    bf = b ∧ cf = c := by
  cases h
  exact ⟨rfl, rfl⟩

/-! ### dictInsert: fresh keys append, keys stay nodup -/

theorem dictInsert_fresh {d : List (String × PyVal)} {k : String} (v : PyVal)
    (h : ∀ e ∈ d, e.1 ≠ k) : dictInsert d k v = d ++ [(k, v)] := by
  induction d with
  | nil => rfl
  | cons e rest ih =>
    show (if e.1 = k then _ else _) = _
    rw [if_neg (h e (List.mem_cons_self e rest))]
    rw [ih (fun x hx => h x (List.mem_cons_of_mem e hx))]
    cases e
    rfl

theorem dictInsert_keys_mem {d : List (String × PyVal)} {k : String} (v : PyVal)
    (h : k ∈ d.map Prod.fst) : (dictInsert d k v).map Prod.fst = d.map Prod.fst := by
  induction d with
  | nil => cases h
  | cons e rest ih =>
    show ((if e.1 = k then (k, v) :: rest else e :: dictInsert rest k v).map Prod.fst) = _
    by_cases he : e.1 = k
    · rw [if_pos he]
      simp [he]
    · rw [if_neg he]
      have h2 : k ∈ rest.map Prod.fst := by
        rcases List.mem_map.mp h with ⟨x, hx, hxk⟩
        rcases List.mem_cons.mp hx with rfl | hx2
        · exact absurd hxk he
        · exact hxk ▸ List.mem_map_of_mem Prod.fst hx2
      simp only [List.map_cons, ih h2]

theorem dictInsert_nodup {d : List (String × PyVal)} {k : String} (v : PyVal)
    (h : (d.map Prod.fst).Nodup) : ((dictInsert d k v).map Prod.fst).Nodup := by
  by_cases hm : k ∈ d.map Prod.fst
  · rw [dictInsert_keys_mem v hm]
    exact h
  · have hfr : ∀ e ∈ d, e.1 ≠ k := by
      intro e he hek
      exact hm (hek ▸ List.mem_map_of_mem Prod.fst he)
    rw [dictInsert_fresh v hfr]
    rw [List.map_append]
    rw [List.nodup_append]
    refine ⟨h, List.nodup_singleton k, ?_⟩
    intro x hx hx2
    simp only [List.map_cons, List.map_nil, List.mem_singleton] at hx2
    subst hx2
    exact hm hx

theorem DocOk_dictInsert {b c bf cf : Nat} {d : List (String × PyVal)} {k : String}
    {v : PyVal} (h : DocOk b c bf cf d) (hk : KeyOk k) (hv : GoodVal v) :
    DocOk b c bf cf (dictInsert d k v) := by
  induction h with
  | nil b c => exact DocOk.param _ _ _ _ _ k v hk hv (DocOk.nil b c)
  | blank b c bf cf d h ih =>
    show DocOk _ _ _ _ (if bKey (b + 1) = k then _ else _)
    rw [if_neg (fun he => keyOk_ne_bKey hk (b + 1) he.symm)]
    exact DocOk.blank _ _ _ _ _ ih
  | comment b c bf cf d t ht h ih =>
    show DocOk _ _ _ _ (if cKey (c + 1) = k then _ else _)
    rw [if_neg (fun he => keyOk_ne_cKey hk (c + 1) he.symm)]
    exact DocOk.comment _ _ _ _ _ t ht ih
  | param b c bf cf d k0 v0 hk0 hv0 h ih =>
    show DocOk _ _ _ _ (if k0 = k then (k, v) :: d else (k0, v0) :: dictInsert d k v)
    by_cases he : k0 = k
    · rw [if_pos he]
      exact DocOk.param _ _ _ _ _ k v hk hv h
    · rw [if_neg he]
      exact DocOk.param _ _ _ _ _ k0 v0 hk0 hv0 ih

/-! ### Inversion of the classification on arbitrary lines -/

theorem splitFirst_some {p : Char → Bool} : ∀ {cs A B : List Char},
    splitFirst p cs = some (A, B) →
    (∀ c ∈ A, p c = false) ∧ ∃ x, p x = true ∧ cs = A ++ x :: B := by
  intro cs
  induction cs with
  | nil => intro A B h; cases h
  | cons c rest ih =>
    intro A B h
    by_cases hp : p c
    · replace h : some (([] : List Char), rest) = some (A, B) := by
        rw [show splitFirst p (c :: rest) = if p c then some ([], rest)
          else (splitFirst p rest).map (fun pr => (c :: pr.1, pr.2)) from rfl, if_pos hp] at h
        exact h
      have h2 := Option.some.inj h
      have hA : A = [] := (Prod.mk.injEq _ _ _ _ ▸ h2).1.symm
      have hB : B = rest := (Prod.mk.injEq _ _ _ _ ▸ h2).2.symm
      subst hA
      subst hB
      exact ⟨fun x hx => absurd hx (List.not_mem_nil x), c, hp, rfl⟩
    · replace h : (splitFirst p rest).map (fun pr => (c :: pr.1, pr.2)) = some (A, B) := by
        rw [show splitFirst p (c :: rest) = if p c then some ([], rest)
          else (splitFirst p rest).map (fun pr => (c :: pr.1, pr.2)) from rfl,
          if_neg hp] at h
        exact h
      rcases Option.map_eq_some'.mp h with ⟨pr, hpr, hval⟩
      cases pr with
      | mk A2 B2 =>
        have hA : A = c :: A2 := (Prod.mk.injEq _ _ _ _ ▸ hval).1.symm
        have hB : B = B2 := (Prod.mk.injEq _ _ _ _ ▸ hval).2.symm
        subst hA
        subst hB
        obtain ⟨hall, x, hx, heq⟩ := ih hpr
        refine ⟨?_, x, hx, by rw [heq]; rfl⟩
        intro c2 hc2
        rcases List.mem_cons.mp hc2 with rfl | hc3
        · exact Bool.not_eq_true _ ▸ hp
        · exact hall c2 hc3

theorem mem_stripCore {cs : List Char} {c : Char} (h : c ∈ stripCore cs) : c ∈ cs := by
  have h2 : c ∈ ltrim cs := (rtrim_front (ltrim cs)).subset h
  exact (List.dropWhile_suffix pyIsSpace).subset h2

theorem commentMatch_none_head {s : String} (h : commentMatch s = none)
    (hl : ltrim s.data = s.data) : s.data.head? ≠ some ';' := by
  intro hh
  unfold commentMatch at h
  rw [show s.data.dropWhile pyIsSpace = s.data from hl] at h
  cases hd : s.data with
  | nil => rw [hd] at hh; cases hh
  | cons c tail =>
    rw [hd] at h hh
    have hc : c = ';' := Option.some.inj hh
    subst hc
    replace h : (if (';' : Char) = ';' then some (String.mk (tail.dropWhile pyIsSpace))
      else none) = none := h
    rw [if_pos rfl] at h
    cases h

theorem classify_param_inv {l : String} {k v : String} (h : classifyLine l = .param k v) :
    pyStrip l ≠ "" ∧ commentMatch (pyStrip l) = none ∧ paramMatch (pyStrip l) = some (k, v) := by
  unfold classifyLine at h
  by_cases h0 : pyStrip l = ""
  · rw [if_pos h0] at h
    cases h
  · rw [if_neg h0] at h
    cases hcm : commentMatch (pyStrip l) with
    | some t => rw [hcm] at h; cases h
    | none =>
      rw [hcm] at h
      cases hpm : paramMatch (pyStrip l) with
      | none => rw [hpm] at h; cases h
      | some kv =>
        rw [hpm] at h
        replace h : LineKind.param kv.1 kv.2 = .param k v := h
        injection h with hk hv
        subst hk
        subst hv
        exact ⟨h0, rfl, rfl⟩

theorem classify_comment_inv {l : String} {t : String} (h : classifyLine l = .comment t) :
    pyStrip l ≠ "" ∧ commentMatch (pyStrip l) = some t := by
  unfold classifyLine at h
  by_cases h0 : pyStrip l = ""
  · rw [if_pos h0] at h
    cases h
  · rw [if_neg h0] at h
    cases hcm : commentMatch (pyStrip l) with
    | some t2 =>
      rw [hcm] at h
      replace h : LineKind.comment t2 = .comment t := h
      injection h with ht
      subst ht
      exact ⟨h0, rfl⟩
    | none =>
      rw [hcm] at h
      cases hpm : paramMatch (pyStrip l) with
      | none => rw [hpm] at h; cases h
      | some kv => rw [hpm] at h; cases h

theorem pyStrip_stripped (l : String) : stripCore (pyStrip l).data = (pyStrip l).data := by
  show stripCore (stripCore l.data) = stripCore l.data
  exact stripCore_stripCore l.data

theorem data_ne_nil_of_ne_empty {s : String} (h : s ≠ "") : s.data ≠ [] :=
  fun h2 => h (data_nil_eq_empty h2)

theorem paramMatch_inv {s : String} {k v : String} (h : paramMatch s = some (k, v))
    (hs : stripCore s.data = s.data) (hsemi : s.data.head? ≠ some ';') :
    k.data ≠ [] ∧ stripCore k.data = k.data ∧ ('=' ∉ k.data) ∧ k.data.head? ≠ some ';' ∧
      (∀ c ∈ v.data, c ≠ ';') := by
  unfold paramMatch at h
  cases hsp : splitFirst (· = '=') s.data with
  | none => rw [hsp] at h; cases h
  | some pr =>
    rw [hsp] at h
    cases pr with
    | mk before after =>
      replace h : (if stripCore before = [] then none
        else some (String.mk (stripCore before),
          String.mk ((after.dropWhile pyIsSpace).takeWhile (· ≠ ';')))) = some (k, v) := h
      by_cases hb : stripCore before = []
      · rw [if_pos hb] at h
        cases h
      · rw [if_neg hb] at h
        have h2 := Option.some.inj h
        have hk : k = String.mk (stripCore before) := ((Prod.mk.injEq _ _ _ _ ▸ h2).1).symm
        have hv : v = String.mk ((after.dropWhile pyIsSpace).takeWhile (· ≠ ';')) :=
          ((Prod.mk.injEq _ _ _ _ ▸ h2).2).symm
        obtain ⟨hall, x, hx, heq⟩ := splitFirst_some hsp
        have hxe : x = '=' := by simpa using hx
        subst hxe
        have hkd : k.data = stripCore before := by rw [hk]
        have hbne : before ≠ [] := by
          intro h0
          rw [h0] at hb
          exact hb rfl
        have hbefhead : ∀ c, before.head? = some c → s.data.head? = some c := by
          intro c hc
          rw [heq, List.head?_append_of_ne_nil _ hbne]
          exact hc
        have hheadns : ∀ c, before.head? = some c → pyIsSpace c = false := by
          intro c hc
          exact g_head_not_space hs c (hbefhead c hc)
        have hltb : ltrim before = before := ltrim_eq_self hheadns
        refine ⟨by rw [hkd]; exact hb, by rw [hkd]; exact stripCore_stripCore before, ?_, ?_, ?_⟩
        · intro hmem
          rw [hkd] at hmem
          have h3 := hall '=' (mem_stripCore hmem)
          simp at h3
        · intro hh
          rw [hkd] at hh
          replace hh : (rtrim (ltrim before)).head? = some ';' := hh
          rw [hltb] at hh
          exact hsemi (hbefhead ';' (head?_rtrim hh))
        · intro c hc
          rw [hv] at hc
          replace hc : c ∈ (after.dropWhile pyIsSpace).takeWhile (· ≠ ';') := hc
          have h3 := List.mem_takeWhile_imp hc
          simpa using h3

theorem classify_param_KeyOk {l : String} {k v : String} (h : classifyLine l = .param k v)
    (hbk : lineKeyOK l = true) : KeyOk k := by
  obtain ⟨h0, hcm, hpm⟩ := classify_param_inv h
  have hstr := pyStrip_stripped l
  have hsemi : (pyStrip l).data.head? ≠ some ';' :=
    commentMatch_none_head hcm (ltrim_stripCore l.data)
  obtain ⟨h1, h2, h3, h4, -⟩ := paramMatch_inv hpm hstr hsemi
  unfold lineKeyOK at hbk
  rw [h] at hbk
  simp only [Bool.and_eq_true, Bool.not_eq_true', decide_eq_false_iff_not] at hbk
  exact ⟨h1, h2, h3, h4, hbk.1, hbk.2⟩

theorem classify_param_val {l : String} {k v : String} (h : classifyLine l = .param k v) :
    ∀ c ∈ v.data, c ≠ ';' := by
  obtain ⟨h0, hcm, hpm⟩ := classify_param_inv h
  have hsemi : (pyStrip l).data.head? ≠ some ';' :=
    commentMatch_none_head hcm (ltrim_stripCore l.data)
  exact (paramMatch_inv hpm (pyStrip_stripped l) hsemi).2.2.2.2

theorem classify_comment_TxtOk {l : String} {t : String} (h : classifyLine l = .comment t) :
    TxtOk t := by
  obtain ⟨h0, hcm⟩ := classify_comment_inv h
  have hstr := pyStrip_stripped l
  have hne : (pyStrip l).data ≠ [] := data_ne_nil_of_ne_empty h0
  unfold commentMatch at hcm
  rw [show (pyStrip l).data.dropWhile pyIsSpace = (pyStrip l).data
    from ltrim_stripCore l.data] at hcm
  cases hd : (pyStrip l).data with
  | nil => exact absurd hd hne
  | cons c tail =>
    rw [hd] at hcm
    replace hcm : (if c = ';' then some (String.mk (tail.dropWhile pyIsSpace))
      else none) = some t := hcm
    by_cases hc : c = ';'
    · rw [if_pos hc] at hcm
      have ht : t = String.mk (tail.dropWhile pyIsSpace) := (Option.some.inj hcm).symm
      have htd : t.data = tail.dropWhile pyIsSpace := by rw [ht]
      show stripCore t.data = t.data
      apply stripCore_eq_self
      · intro x hx
        rw [htd] at hx
        exact head?_dropWhile hx
      · intro x hx
        rw [htd] at hx
        have hsuff : tail.dropWhile pyIsSpace <:+ tail := List.dropWhile_suffix pyIsSpace
        obtain ⟨pre, hpre⟩ := hsuff
        have hdw : tail.dropWhile pyIsSpace ≠ [] := by
          intro h0
          rw [h0] at hx
          cases hx
        have hx2 : tail.getLast? = some x := by
          rw [← hpre, List.getLast?_append_of_ne_nil _ hdw]
          exact hx
        have hx3 : (pyStrip l).data.getLast? = some x := by
          rw [hd, show c :: tail = [c] ++ tail from rfl,
            List.getLast?_append_of_ne_nil _ (by
              intro h0
              rw [h0] at hx2
              cases hx2)]
          exact hx2
        exact g_last_not_space (pyStrip_stripped l) x hx3
    · rw [if_neg hc] at hcm
      cases hcm

/-! ### Invariants preserved by MDP.read -/

theorem readStep_inv {f : String} {st st2 : RSt} {l : String}
    (hs : readStep f st l = .ok st2) (hbk : lineKeyOK l = true)
    (hd : DocOk 0 0 st.ib st.ic st.data) (hnd : (st.data.map Prod.fst).Nodup) :
    DocOk 0 0 st2.ib st2.ic st2.data ∧ (st2.data.map Prod.fst).Nodup := by
  unfold readStep at hs
  cases hcl : classifyLine l with
  | blank =>
    rw [hcl] at hs
    replace hs : Except.ok
      (RSt.mk (dictInsert st.data (bKey (st.ib + 1)) (.scalar (.str ""))) (st.ib + 1) st.ic) =
      Except.ok st2 := hs
    have hst : st2 =
        RSt.mk (dictInsert st.data (bKey (st.ib + 1)) (.scalar (.str ""))) (st.ib + 1) st.ic :=
      (Except.ok.inj hs).symm
    subst hst
    refine ⟨?_, dictInsert_nodup _ hnd⟩
    show DocOk 0 0 (st.ib + 1) st.ic (dictInsert st.data (bKey (st.ib + 1)) _)
    have hfr : ∀ e ∈ st.data, e.1 ≠ bKey (st.ib + 1) := by
      intro e he hek
      rcases DocOk_keys hd e he with ⟨i, hi1, hi2, hi3⟩ | ⟨j, hj1, hj2, hj3⟩ | hko
      · rw [hi3] at hek
        have := bKey_inj hek
        omega
      · rw [hj3] at hek
        exact bKey_ne_cKey (st.ib + 1) j hek.symm
      · exact keyOk_ne_bKey hko (st.ib + 1) hek
    rw [dictInsert_fresh _ hfr]
    exact DocOk_append hd (DocOk.blank st.ib st.ic (st.ib + 1) st.ic [] (DocOk.nil _ _))
  | comment t =>
    rw [hcl] at hs
    replace hs : Except.ok
      (RSt.mk (dictInsert st.data (cKey (st.ic + 1)) (.scalar (.str t))) st.ib (st.ic + 1)) =
      Except.ok st2 := hs
    have hst : st2 =
        RSt.mk (dictInsert st.data (cKey (st.ic + 1)) (.scalar (.str t))) st.ib (st.ic + 1) :=
      (Except.ok.inj hs).symm
    subst hst
    refine ⟨?_, dictInsert_nodup _ hnd⟩
    show DocOk 0 0 st.ib (st.ic + 1) (dictInsert st.data (cKey (st.ic + 1)) _)
    have hfr : ∀ e ∈ st.data, e.1 ≠ cKey (st.ic + 1) := by
      intro e he hek
      rcases DocOk_keys hd e he with ⟨i, hi1, hi2, hi3⟩ | ⟨j, hj1, hj2, hj3⟩ | hko
      · rw [hi3] at hek
        exact bKey_ne_cKey i (st.ic + 1) hek
      · rw [hj3] at hek
        have := cKey_inj hek
        omega
      · exact keyOk_ne_cKey hko (st.ic + 1) hek
    rw [dictInsert_fresh _ hfr]
    exact DocOk_append hd
      (DocOk.comment st.ib st.ic st.ib (st.ic + 1) [] t (classify_comment_TxtOk hcl)
        (DocOk.nil _ _))
  | param k v0 =>
    rw [hcl] at hs
    replace hs : Except.ok (RSt.mk (dictInsert st.data k (convertToNumeric v0)) st.ib st.ic) =
      Except.ok st2 := hs
    have hst : st2 = RSt.mk (dictInsert st.data k (convertToNumeric v0)) st.ib st.ic :=
      (Except.ok.inj hs).symm
    subst hst
    exact ⟨DocOk_dictInsert hd (classify_param_KeyOk hcl hbk)
      (conv_good v0 (classify_param_val hcl)), dictInsert_nodup _ hnd⟩
  | bad =>
    rw [hcl] at hs
    replace hs : (Except.error (mkErr (pyBasename f) (pyStrip l)) : Except String RSt) =
      Except.ok st2 := hs
    cases hs

theorem readFold_inv : ∀ (lines : List String) (f : String) (st st2 : RSt),
    readFold f st lines = .ok st2 → (∀ l ∈ lines, lineKeyOK l = true) →
    DocOk 0 0 st.ib st.ic st.data → (st.data.map Prod.fst).Nodup →
    DocOk 0 0 st2.ib st2.ic st2.data ∧ (st2.data.map Prod.fst).Nodup := by
  intro lines
  induction lines with
  | nil =>
    intro f st st2 h hk hd hnd
    replace h : Except.ok st = Except.ok st2 := h
    have hst : st2 = st := (Except.ok.inj h).symm
    subst hst
    exact ⟨hd, hnd⟩
  | cons x xs ih =>
    intro f st st2 h hk hd hnd
    rw [readFold_cons] at h
    cases hstep : readStep f st x with
    | ok st1 =>
      rw [hstep] at h
      replace h : readFold f st1 xs = .ok st2 := h
      obtain ⟨hd1, hnd1⟩ := readStep_inv hstep (hk x (List.mem_cons_self x xs)) hd hnd
      exact ih f st1 st2 h (fun l hl => hk l (List.mem_cons_of_mem x hl)) hd1 hnd1
    | error e =>
      rw [hstep] at h
      replace h : (Except.error e : Except String RSt) = .ok st2 := h
      cases h

/-! ### The write-side line emitters -/

theorem writeEntry_headB {k : String} (h : k.data.head? = some 'B') (se : Bool) (v : PyVal) :
    writeEntry se k v = some "" := by
  simp [writeEntry, h]

theorem writeEntry_headC {k : String} (h : k.data.head? = some 'C') (se : Bool) (v : PyVal) :
    writeEntry se k v = some ("; " ++ pyStr v) := by
  simp [writeEntry, h]

theorem writeEntry_plain {k : String} (hB : k.data.head? ≠ some 'B')
    (hC : k.data.head? ≠ some 'C') (v : PyVal) :
    writeEntry false k v = some (k ++ " = " ++ valStr v) := by
  unfold writeEntry
  cases h : k.data.head? with
  | none => rfl
  | some c =>
    rw [h] at hB hC
    have hcB : c ≠ 'B' := fun hc => hB (by rw [hc])
    have hcC : c ≠ 'C' := fun hc => hC (by rw [hc])
    simp [hcB, hcC]

theorem writeLines_cons (se : Bool) (e : String × PyVal) (d : List (String × PyVal)) :
    writeLines se (e :: d) = match writeEntry se e.1 e.2 with
      | some l => l :: writeLines se d
      | none => writeLines se d := by
  cases h : writeEntry se e.1 e.2 with
  | some l => simp [writeLines, List.filterMap_cons, h]
  | none => simp [writeLines, List.filterMap_cons, h]

/-! ### Replaying a written document through MDP.read -/

theorem nodup_mid_fresh {acc d : List (String × PyVal)} {e : String × PyVal}
    (h : ((acc ++ e :: d).map Prod.fst).Nodup) : ∀ x ∈ acc, x.1 ≠ e.1 := by
  rw [List.map_append, List.map_cons, List.nodup_append] at h
  intro x hx hxe
  exact h.2.2 (List.mem_map_of_mem Prod.fst hx)
    (by rw [hxe]; exact List.mem_cons_self _ _)

theorem replay (f2 : String) {d : List (String × PyVal)} {b c bf cf : Nat}
    (hdoc : DocOk b c bf cf d) : ∀ acc : List (String × PyVal),
    ((acc ++ d).map Prod.fst).Nodup →
    readFold f2 (RSt.mk acc b c) (writeLines false d) =
      .ok (RSt.mk (acc ++ d) bf cf) := by
  induction hdoc with
  | nil b c =>
    intro acc hnd
    show Except.ok (RSt.mk acc b c) = Except.ok (RSt.mk (acc ++ []) b c)
    rw [List.append_nil]
  | blank b c bf cf d h ih =>
    intro acc hnd
    have hwl : writeLines false ((bKey (b + 1), PyVal.scalar (.str "")) :: d) =
        "" :: writeLines false d := by
      rw [writeLines_cons, writeEntry_headB (bKey_head (b + 1)) false _]
    rw [hwl, readFold_cons]
    have hstep : readStep f2 (RSt.mk acc b c) "" =
        .ok (RSt.mk (dictInsert acc (bKey (b + 1)) (PyVal.scalar (.str ""))) (b + 1) c) := by
      unfold readStep
      rw [classify_written_blank]
    rw [hstep]
    have hfr : ∀ x ∈ acc, x.1 ≠ bKey (b + 1) := nodup_mid_fresh hnd
    rw [dictInsert_fresh _ hfr]
    have hnd2 : (((acc ++ [(bKey (b + 1), PyVal.scalar (.str ""))]) ++ d).map Prod.fst).Nodup := by
      rw [List.append_assoc]
      exact hnd
    show readFold f2 (RSt.mk (acc ++ [(bKey (b + 1), PyVal.scalar (.str ""))]) (b + 1) c)
        (writeLines false d) =
      Except.ok (RSt.mk (acc ++ (bKey (b + 1), PyVal.scalar (.str "")) :: d) bf cf)
    rw [ih (acc ++ [(bKey (b + 1), PyVal.scalar (.str ""))]) hnd2, List.append_assoc]
    rfl
  | comment b c bf cf d t ht h ih =>
    intro acc hnd
    have hwl : writeLines false ((cKey (c + 1), PyVal.scalar (.str t)) :: d) =
        ("; " ++ t) :: writeLines false d := by
      rw [writeLines_cons, writeEntry_headC (cKey_head (c + 1)) false _]
      rfl
    rw [hwl, readFold_cons]
    have hstep : readStep f2 (RSt.mk acc b c) ("; " ++ t) =
        .ok (RSt.mk (dictInsert acc (cKey (c + 1)) (PyVal.scalar (.str t))) b (c + 1)) := by
      unfold readStep
      rw [classify_written_comment t ht]
    rw [hstep]
    have hfr : ∀ x ∈ acc, x.1 ≠ cKey (c + 1) := nodup_mid_fresh hnd
    rw [dictInsert_fresh _ hfr]
    have hnd2 : (((acc ++ [(cKey (c + 1), PyVal.scalar (.str t))]) ++ d).map Prod.fst).Nodup := by
      rw [List.append_assoc]
      exact hnd
    show readFold f2 (RSt.mk (acc ++ [(cKey (c + 1), PyVal.scalar (.str t))]) b (c + 1))
        (writeLines false d) =
      Except.ok (RSt.mk (acc ++ (cKey (c + 1), PyVal.scalar (.str t)) :: d) bf cf)
    rw [ih (acc ++ [(cKey (c + 1), PyVal.scalar (.str t))]) hnd2, List.append_assoc]
    rfl
  | param b c bf cf d k v hk hv h ih =>
    intro acc hnd
    have hwl : writeLines false ((k, v) :: d) =
        (k ++ " = " ++ valStr v) :: writeLines false d := by
      rw [writeLines_cons, writeEntry_plain hk.2.2.2.2.1 hk.2.2.2.2.2 v]
    rw [hwl, readFold_cons]
    have hstep : readStep f2 (RSt.mk acc b c) (k ++ " = " ++ valStr v) =
        .ok (RSt.mk (dictInsert acc k v) b c) := by
      unfold readStep
      rw [classify_written_param k v hk hv]
      show Except.ok (RSt.mk (dictInsert acc k (convertToNumeric (valStr v))) b c) = _
      rw [conv_roundtrip hv]
    rw [hstep]
    have hfr : ∀ x ∈ acc, x.1 ≠ k := nodup_mid_fresh hnd
    rw [dictInsert_fresh _ hfr]
    have hnd2 : (((acc ++ [(k, v)]) ++ d).map Prod.fst).Nodup := by
      rw [List.append_assoc]
      exact hnd
    show readFold f2 (RSt.mk (acc ++ [(k, v)]) b c) (writeLines false d) =
      Except.ok (RSt.mk (acc ++ (k, v) :: d) bf cf)
    rw [ih (acc ++ [(k, v)]) hnd2, List.append_assoc]
    rfl

theorem readMDP_ok_inv {f : String} {lines : List String} {doc : List (String × PyVal)}
    (h : readMDP f lines = .ok doc) :
    ∃ st : RSt, readFold f (RSt.mk [] 0 0) lines = .ok st ∧ st.data = doc := by
  unfold readMDP at h
  cases hf : readFold f (RSt.mk [] 0 0) lines with
  | ok st =>
    rw [show ({ data := [], ib := 0, ic := 0 } : RSt) = RSt.mk [] 0 0 from rfl, hf] at h
    replace h : Except.ok st.data = Except.ok doc := h
    exact ⟨st, rfl, Except.ok.inj h⟩
  | error e =>
    rw [show ({ data := [], ib := 0, ic := 0 } : RSt) = RSt.mk [] 0 0 from rfl, hf] at h
    replace h : (Except.error e : Except String (List (String × PyVal))) = .ok doc := h
    cases h

/-- Claim C1 (amended): parsing a configuration file with `MDP.read`, writing
the resulting document unchanged with `MDP.write` (`skipempty=False`), and
re-parsing the written lines reproduces exactly the same ordered document —
the same parameter, blank-counter and comment-counter keys in the same order
with equal values — provided no parameter line's key begins with `B` or `C`
(such keys would be re-serialized as blank or comment lines, see
`c1_counterexample`). -/
theorem c1_mdp_roundtrip (f f2 : String) (lines : List String)
    (doc : List (String × PyVal)) (h : readMDP f lines = .ok doc)
    (hkeys : ∀ l ∈ lines, lineKeyOK l = true) :
    readMDP f2 (writeLines false doc) = .ok doc := by
  obtain ⟨st, hf, hdata⟩ := readMDP_ok_inv h
  obtain ⟨hdoc, hnd⟩ := readFold_inv lines f (RSt.mk [] 0 0) st hf hkeys
    (DocOk.nil 0 0) List.nodup_nil
  subst hdata
  have hrep := replay f2 hdoc [] (by simpa using hnd)
  unfold readMDP
  rw [show ({ data := [], ib := 0, ic := 0 } : RSt) = RSt.mk [] 0 0 from rfl, hrep]
  rfl

theorem c1_mdp_roundtrip_witness :
    readMDP "b" (writeLines false [("nsteps", PyVal.scalar (.int 500)),
      ("B0001", PyVal.scalar (.str "")), ("C0001", PyVal.scalar (.str "Run control"))]) =
      .ok [("nsteps", PyVal.scalar (.int 500)), ("B0001", PyVal.scalar (.str "")),
        ("C0001", PyVal.scalar (.str "Run control"))] :=
  c1_mdp_roundtrip "a" "b" ["nsteps = 500", "", "; Run control"]
    [("nsteps", PyVal.scalar (.int 500)), ("B0001", PyVal.scalar (.str "")),
      ("C0001", PyVal.scalar (.str "Run control"))] (by decide) (by decide)

/-- Claim C1 is false without a key restriction: the file `Bar = 5` parses
to the single parameter entry `Bar ↦ 5`, but `MDP.write` dispatches on the
first key character, so that entry is re-serialized as a blank line and
re-parsing yields the blank entry `B0001 ↦ ""` instead of the original. -/
theorem c1_counterexample :
    readMDP "f" ["Bar = 5"] = .ok [("Bar", PyVal.scalar (.int 5))] ∧
    writeLines false [("Bar", PyVal.scalar (.int 5))] = [""] ∧
    readMDP "g" (writeLines false [("Bar", PyVal.scalar (.int 5))]) =
      .ok [("B0001", PyVal.scalar (.str ""))] ∧
    ("B0001" : String) ≠ "Bar" :=
  ⟨by decide, by decide, by decide, by decide⟩
